import Mathlib

set_option maxRecDepth 100000

/-!
Verification of an inode-based filesystem emulator (block device, allocator
and metadata layer, virtual filesystem layer).  The definitions below are a
shallow embedding of the Python sources `block_device.py`, `inode.py`,
`filesystem.py` and `vfs.py`; bytes are modelled as `Nat`, the backing store
as a list of blocks (each a list of bytes), Python dicts as association
lists, and Python exceptions at the device boundary as `Except`.
-/

namespace MyFS

/-! ### Association lists (Python `dict` with insertion order) -/

/-- First-match lookup, the semantics of `d[k]` / `k in d` for a dict whose
keys are unique (as they are by construction below). -/
def dictGet {α β : Type} [DecidableEq α] : List (α × β) → α → Option β
  | [], _ => none
  | (a, b) :: t, k => if a = k then some b else dictGet t k

/-- `d[k] = v`: replace in place if the key exists, else append. -/
def dictSet {α β : Type} [DecidableEq α] : List (α × β) → α → β → List (α × β)
  | [], k, v => [(k, v)]
  | (a, b) :: t, k, v => if a = k then (k, v) :: t else (a, b) :: dictSet t k v

/-- `del d[k]` (keys are unique, so removing every match is the same). -/
def dictErase {α β : Type} [DecidableEq α] (l : List (α × β)) (k : α) : List (α × β) :=
  l.filter (fun p => decide (p.1 ≠ k))

/-! ### Data model: `inode.py` and the descriptor record -/

/-- `Inode.__init__(file_type='file', direct_count=10)`: type tag, hard-link
counter, size in bytes, ten direct block slots, optional indirect block. -/
structure Inode where
  type : String
  hard_links : Int
  size : Nat
  direct : List (Option Nat)
  indirect : Option Nat
deriving DecidableEq

/-- A fresh inode as built by `Inode(file_type)`. -/
def Inode.init (t : String) : Inode :=
  { type := t, hard_links := 0, size := 0, direct := List.replicate 10 none, indirect := none }

/-- Modelled from the spec: `open_file.py` is not among the sources; §3 gives
the open-file-descriptor table entries as `{inode_number, cursor_offset}` and
§4.3 `open` initializes the cursor to 0.  `OpenFile(inode_num)` therefore
carries the inode number and a cursor starting at 0. -/
structure OpenFile where
  inode : Nat
  offset : Nat
deriving DecidableEq

/-! ### The filesystem state (`FileSystem.__init__` fields)

The backing store (`device`) is represented at block granularity: a list of
`total_blocks` blocks of `block_size` bytes.  The filesystem layer only ever
addresses it with in-range indices (theorems carry the length facts); the
raw Int-indexed device API of `block_device.py` is modelled separately below
for the device-level claims. -/

structure FS where
  block_size : Nat
  total_blocks : Nat
  max_inodes : Nat
  block_bitmap : List Bool
  inodes : List (Option Inode)
  root_directory : List (String × Nat)
  open_files : List (Nat × OpenFile)
  next_fd : Nat
  device : List (List Nat)
deriving DecidableEq

/-! ### Block device (`block_device.py`), Int-indexed with failures

`read_block`/`write_block` raise `ValueError("Блок ... поза межами")` exactly
when `block_num >= total_blocks`.  A negative index passes that guard and
only fails later, inside `f.seek(block_num * block_size)`, with the distinct
negative-seek error CPython raises for a negative file position; the two
failure modes are kept distinct. -/

structure BlockDevice where
  block_size : Nat
  total_blocks : Nat
  content : List Nat
deriving DecidableEq

inductive DevError where
  | outOfRange
  | negSeek
deriving DecidableEq

/-- Right-pad with zeros or truncate to exactly `bs` bytes, as
`write_block` does before writing. -/
def normBlock (bs : Nat) (data : List Nat) : List Nat :=
  data.take bs ++ List.replicate (bs - data.length) 0

/-- Splice `seg` into `l` at byte position `pos` (Python slice assignment on
a bytearray / in-place file write; positions beyond the end append). -/
def spliceAt (l : List Nat) (pos : Nat) (seg : List Nat) : List Nat :=
  l.take pos ++ List.replicate (pos - l.length) 0 ++ seg ++ l.drop (pos + seg.length)

/-- `BlockDevice.read_block`: guard, then read `block_size` bytes at the
block's file offset. -/
def BlockDevice.read_block (d : BlockDevice) (i : Int) : Except DevError (List Nat) :=
  if (d.total_blocks : Int) ≤ i then .error .outOfRange
  else if i < 0 then .error .negSeek
  else .ok ((d.content.drop (i.toNat * d.block_size)).take d.block_size)

/-- `BlockDevice.write_block`: guard, normalize the data to one block, then
write it at the block's file offset. -/
def BlockDevice.write_block (d : BlockDevice) (i : Int) (data : List Nat) :
    Except DevError BlockDevice :=
  if (d.total_blocks : Int) ≤ i then .error .outOfRange
  else if i < 0 then .error .negSeek
  else .ok { d with content := spliceAt d.content (i.toNat * d.block_size) (normBlock d.block_size data) }

/-! ### JSON encoding (`json.dumps` with default options)

`save_metadata` serializes the superblock and the inode table with
`json.dumps(...)` (default separators `', '` and `': '`, `ensure_ascii`) and
writes the UTF-8 bytes to reserved blocks; the exact byte count decides how
many blocks the inode table spans, so the encoder is reproduced exactly. -/

def hexDigit (n : Nat) : Char :=
  if n < 10 then Char.ofNat (48 + n) else Char.ofNat (87 + n)

def hex4 (n : Nat) : String :=
  String.mk [hexDigit (n / 4096 % 16), hexDigit (n / 256 % 16), hexDigit (n / 16 % 16), hexDigit (n % 16)]

def jsonEscapeChar (c : Char) : String :=
  if c = Char.ofNat 34 then "\\\""
  else if c = Char.ofNat 92 then "\\\\"
  else if c.toNat = 10 then "\\n"
  else if c.toNat = 9 then "\\t"
  else if c.toNat = 13 then "\\r"
  else if c.toNat = 8 then "\\b"
  else if c.toNat = 12 then "\\f"
  else if c.toNat < 32 then "\\u" ++ hex4 c.toNat
  else if c.toNat < 127 then String.singleton c
  else if c.toNat < 65536 then "\\u" ++ hex4 c.toNat
  else
    "\\u" ++ hex4 (55296 + (c.toNat - 65536) / 1024) ++ "\\u" ++ hex4 (56320 + (c.toNat - 65536) % 1024)

def jsonEscape (s : String) : String :=
  String.join (s.data.map jsonEscapeChar)

def jsonStr (s : String) : String :=
  "\"" ++ jsonEscape s ++ "\""

def jsonList (xs : List String) : String :=
  "[" ++ String.intercalate ", " xs ++ "]"

def jsonObj (kvs : List (String × String)) : String :=
  "\x7b" ++ String.intercalate ", " (kvs.map (fun kv => jsonStr kv.1 ++ ": " ++ kv.2)) ++ "\x7d"

def jsonOptNat : Option Nat → String
  | none => "null"
  | some n => toString n

/-- The dict built for one inode in `save_metadata` (insertion order:
type, hard_links, size, direct, indirect). -/
def encodeInode (ino : Inode) : String :=
  jsonObj [("type", jsonStr ino.type), ("hard_links", toString ino.hard_links),
           ("size", toString ino.size), ("direct", jsonList (ino.direct.map jsonOptNat)),
           ("indirect", jsonOptNat ino.indirect)]

/-- `json.dumps(inode_data)`: the full inode table, `null` for empty slots. -/
def encodeInodes (l : List (Option Inode)) : String :=
  jsonList (l.map (fun oi => match oi with | some i => encodeInode i | none => "null"))

/-- `json.dumps(superblock)` (insertion order: magic, block_size,
total_blocks, max_inodes, root_directory). -/
def encodeSuperblock (fs : FS) : String :=
  jsonObj [("magic", jsonStr "MYFS"), ("block_size", toString fs.block_size),
           ("total_blocks", toString fs.total_blocks), ("max_inodes", toString fs.max_inodes),
           ("root_directory", jsonObj (fs.root_directory.map (fun kv => (kv.1, toString kv.2))))]

/-- UTF-8 bytes of an ASCII-only `json.dumps` result. -/
def strBytes (s : String) : List Nat :=
  s.data.map Char.toNat

/-- `bitarray.tobytes()`: pack bits 8 per byte, most significant first,
zero-padding the final byte. -/
def packByte (l : List Bool) : Nat :=
  (l ++ List.replicate (8 - l.length) false).foldl (fun acc b => 2 * acc + (if b then 1 else 0)) 0

def bitmapBytesAux : Nat → List Bool → List Nat
  | 0, _ => []
  | _, [] => []
  | fuel + 1, b :: t => packByte ((b :: t).take 8) :: bitmapBytesAux fuel ((b :: t).drop 8)

def bitmapBytes (l : List Bool) : List Nat :=
  bitmapBytesAux l.length l

/-! ### FileSystem (`filesystem.py`): allocator and metadata -/

/-- `_reserve_metadata_blocks`: mark blocks `[0, 2 + C*64 // B + 1)`
allocated.  (Python raises IndexError if that count exceeds the bitmap
length; theorems that depend on the marking carry the bound.) -/
def FS.reserveMetadataBlocks (fs : FS) : FS :=
  let m := 2 + fs.max_inodes * 64 / fs.block_size + 1
  { fs with block_bitmap := (List.range m).foldl (fun bm i => bm.set i true) fs.block_bitmap }

/-- `bitarray.index(0)`: index of the first clear bit. -/
def firstFalse : List Bool → Option Nat
  | [] => none
  | b :: t => if b then (firstFalse t).map (· + 1) else some 0

/-- `_find_free_block`. -/
def FS.findFreeBlock (fs : FS) : Option Nat :=
  firstFalse fs.block_bitmap

/-- `_allocate_block`: find the first free block and mark it. -/
def FS.allocateBlock (fs : FS) : Option Nat × FS :=
  match fs.findFreeBlock with
  | some b => (some b, { fs with block_bitmap := fs.block_bitmap.set b true })
  | none => (none, fs)

/-- `_free_block`: clear the bit; out-of-range indices are a no-op. -/
def FS.freeBlock (fs : FS) (b : Nat) : FS :=
  if b < fs.block_bitmap.length then { fs with block_bitmap := fs.block_bitmap.set b false } else fs

/-- `_find_free_inode`: first `None` slot. -/
def firstNone : List (Option Inode) → Option Nat
  | [] => none
  | o :: t => match o with
    | none => some 0
    | some _ => (firstNone t).map (· + 1)

def FS.findFreeInode (fs : FS) : Option Nat :=
  firstNone fs.inodes

/-- In-range block write on the block-granular device view (`write_block`
normalizes the data; the filesystem layer only issues in-range writes, an
out-of-range index is left as the identity here since the Python exception
would propagate past the in-memory mutations already performed). -/
def FS.writeBlockN (fs : FS) (i : Nat) (data : List Nat) : FS :=
  if i < fs.total_blocks then { fs with device := fs.device.set i (normBlock fs.block_size data) } else fs

/-- The `while inode_json:` loop of `save_metadata`: write the encoded inode
table in block-sized chunks starting at block 2.  The `fuel` argument makes
the recursion structural; each step consumes at least one byte of `rest`, so
`fuel = rest.length` never runs out.  (With `block_size = 0` the Python loop
would never terminate; the guard returns instead.) -/
def FS.saveInodeChunksAux : Nat → FS → Nat → List Nat → FS
  | 0, fs, _, _ => fs
  | fuel + 1, fs, blockNum, rest =>
    if rest = [] ∨ fs.block_size = 0 then fs
    else
      FS.saveInodeChunksAux fuel (fs.writeBlockN blockNum (rest.take fs.block_size)) (blockNum + 1)
        (rest.drop fs.block_size)

def FS.saveInodeChunks (fs : FS) (blockNum : Nat) (rest : List Nat) : FS :=
  FS.saveInodeChunksAux rest.length fs blockNum rest

/-- `save_metadata`: superblock to block 0, bitmap to block 1, inode table
chunks from block 2 on. -/
def FS.saveMetadata (fs : FS) : FS :=
  let fs0 := fs.writeBlockN 0 (strBytes (encodeSuperblock fs))
  let fs1 := fs0.writeBlockN 1 (bitmapBytes fs.block_bitmap)
  fs1.saveInodeChunks 2 (strBytes (encodeInodes fs.inodes))

/-! ### VFS (`vfs.py`) -/

/-- `VFS.create`. -/
def VFS.create (fs : FS) (name : String) : Bool × FS :=
  if (dictGet fs.root_directory name).isSome then (false, fs)
  else
    match fs.findFreeInode with
    | none => (false, fs)
    | some inum =>
      let ino := { Inode.init "file" with hard_links := 1 }
      let fs' := { fs with inodes := fs.inodes.set inum (some ino),
                           root_directory := dictSet fs.root_directory name inum }
      (true, fs'.saveMetadata)

/-- The `while fd in self.fs.open_files: fd += 1` scan of `VFS.open`. -/
def maxKey (l : List (Nat × OpenFile)) : Nat :=
  l.foldr (fun p acc => max p.1 acc) 0

/-- Structural-fuel version of the scan: an occupied `fd` is always at most
`maxKey tbl`, so once the fuel `maxKey tbl + 1 - fd` reaches 0 the candidate
is past every key and returning it is exactly what the Python loop does. -/
def findFdAux : Nat → List (Nat × OpenFile) → Nat → Nat
  | 0, _, fd => fd
  | fuel + 1, tbl, fd => if (dictGet tbl fd).isSome then findFdAux fuel tbl (fd + 1) else fd

def findFd (tbl : List (Nat × OpenFile)) (fd : Nat) : Nat :=
  findFdAux (maxKey tbl + 1 - fd) tbl fd

/-- `VFS.open`: name lookup, inode check, then scan for a free fd starting
at `next_fd`. -/
def VFS.openFile (fs : FS) (name : String) : Option Nat × FS :=
  match dictGet fs.root_directory name with
  | none => (none, fs)
  | some inum =>
    match fs.inodes.getD inum none with
    | none => (none, fs)
    | some _ =>
      let fd := findFd fs.open_files fs.next_fd
      (some fd, { fs with open_files := dictSet fs.open_files fd { inode := inum, offset := 0 },
                          next_fd := fd + 1 })

/-- `VFS.close`: drop the fd-table entry, nothing else. -/
def VFS.close (fs : FS) (fd : Nat) : Bool × FS :=
  if (dictGet fs.open_files fd).isSome then
    (true, { fs with open_files := dictErase fs.open_files fd })
  else (false, fs)

/-- `VFS.seek`: clamp with `max(0, offset)`. -/
def VFS.seek (fs : FS) (fd : Nat) (offset : Int) : Bool × FS :=
  match dictGet fs.open_files fd with
  | none => (false, fs)
  | some of => (true, { fs with open_files := dictSet fs.open_files fd { of with offset := offset.toNat } })

/-- `VFS.link`. -/
def VFS.link (fs : FS) (name1 name2 : String) : Bool × FS :=
  if (dictGet fs.root_directory name1).isNone ∨ (dictGet fs.root_directory name2).isSome then
    (false, fs)
  else
    match dictGet fs.root_directory name1 with
    | none => (false, fs)
    | some inum =>
      match fs.inodes.getD inum none with
      | none => (false, fs)
      | some ino =>
        let fs' := { fs with inodes := fs.inodes.set inum (some { ino with hard_links := ino.hard_links + 1 }),
                             root_directory := dictSet fs.root_directory name2 inum }
        (true, fs'.saveMetadata)

/-- One step of `_delete_inode`'s loop over the direct list: free the block
if the slot holds one. -/
def freeDirectStep (f : FS) (ob : Option Nat) : FS :=
  match ob with
  | some b => f.freeBlock b
  | none => f

/-- `VFS._delete_inode`: free every direct block, free the indirect block if
present, clear the slot. -/
def VFS.deleteInode (fs : FS) (inum : Nat) : FS :=
  match fs.inodes.getD inum none with
  | none => fs
  | some ino =>
    let fs1 := ino.direct.foldl freeDirectStep fs
    let fs2 := match ino.indirect with | some b => fs1.freeBlock b | none => fs1
    { fs2 with inodes := fs2.inodes.set inum none }

/-- `VFS.unlink`: decrement the link count, drop the directory entry, and
delete the inode only if the count reached 0 and no open fd references it. -/
def VFS.unlink (fs : FS) (name : String) : Bool × FS :=
  match dictGet fs.root_directory name with
  | none => (false, fs)
  | some inum =>
    match fs.inodes.getD inum none with
    | none => (false, fs)
    | some ino =>
      let ino' := { ino with hard_links := ino.hard_links - 1 }
      let fs1 := { fs with inodes := fs.inodes.set inum (some ino'),
                           root_directory := dictErase fs.root_directory name }
      let fs2 :=
        if ino'.hard_links = (0 : Int) then
          if fs1.open_files.any (fun p => decide (p.2.inode = inum)) then fs1
          else VFS.deleteInode fs1 inum
        else fs1
      (true, fs2.saveMetadata)

/-- The read loop of `VFS.read`: accumulate bytes; `None` slots yield zeros;
a block offset beyond the direct list stops the loop (unimplemented indirect
blocks).  (`bytes_to_read = 0` can only happen with `block_size = 0`, where
Python would raise ZeroDivisionError before the loop body.) -/
def VFS.readLoopAux (bs : Nat) (dev : List (List Nat)) (direct : List (Option Nat))
    (offset actual : Nat) : Nat → Nat → List Nat → List Nat × Nat
  | 0, bytesRead, acc => (acc, bytesRead)
  | fuel + 1, bytesRead, acc =>
    if bytesRead < actual then
      let bo := (offset + bytesRead) / bs
      let byo := (offset + bytesRead) % bs
      if bo < direct.length then
        let btr := min (actual - bytesRead) (bs - byo)
        if btr = 0 then (acc, bytesRead)
        else
          match direct.getD bo none with
          | none =>
            VFS.readLoopAux bs dev direct offset actual fuel (bytesRead + btr)
              (acc ++ List.replicate btr 0)
          | some b =>
            VFS.readLoopAux bs dev direct offset actual fuel (bytesRead + btr)
              (acc ++ ((dev.getD b []).drop byo).take btr)
      else (acc, bytesRead)
    else (acc, bytesRead)

/-- Each taken iteration reads at least one byte, so `actual` iterations of
fuel always suffice; fuel 0 is never reached with `bytesRead < actual`. -/
def VFS.readLoop (bs : Nat) (dev : List (List Nat)) (direct : List (Option Nat))
    (offset actual : Nat) (bytesRead : Nat) (acc : List Nat) : List Nat × Nat :=
  VFS.readLoopAux bs dev direct offset actual (actual - bytesRead) bytesRead acc

/-- `VFS.read`. -/
def VFS.read (fs : FS) (fd : Nat) (size : Nat) : Option (List Nat) × FS :=
  match dictGet fs.open_files fd with
  | none => (none, fs)
  | some of =>
    match fs.inodes.getD of.inode none with
    | none => (none, fs)
    | some ino =>
      if ino.size ≤ of.offset then (some [], fs)
      else
        let actual := min size (ino.size - of.offset)
        let r := VFS.readLoop fs.block_size fs.device ino.direct of.offset actual 0 []
        (some r.1, { fs with open_files := dictSet fs.open_files fd { of with offset := of.offset + r.2 } })

/-- One block write of the write loop: read the block (`bd`), splice `seg`
into it at byte offset `byo` (bytearray slice assignment), write it back
normalized (`write_block`). -/
def spliceBlock (bs : Nat) (dev : List (List Nat)) (b byo : Nat) (seg : List Nat) :
    List (List Nat) :=
  let bd := dev.getD b []
  let newBlock := bd.take byo ++ List.replicate (byo - bd.length) 0 ++ seg ++
    bd.drop (byo + seg.length)
  if b < dev.length then dev.set b (normBlock bs newBlock) else dev

/-- The write loop of `VFS.write`: allocate a block on first touch of an
empty slot, stop on allocation failure or past the direct capacity, splice
the bytes into the block and write it back.  (`bytes_to_write = 0` can only
happen with `block_size = 0`, where Python would raise before the body.) -/
def VFS.writeLoopAux (bs : Nat) (offset : Nat) (data : List Nat) :
    Nat → List (List Nat) → List Bool → List (Option Nat) → Nat →
    Nat × List (List Nat) × List Bool × List (Option Nat)
  | 0, dev, bitmap, direct, bytesWritten => (bytesWritten, dev, bitmap, direct)
  | fuel + 1, dev, bitmap, direct, bytesWritten =>
    if bytesWritten < data.length then
      let bo := (offset + bytesWritten) / bs
      let byo := (offset + bytesWritten) % bs
      if bo < direct.length then
        let btw := min (data.length - bytesWritten) (bs - byo)
        match direct.getD bo none with
        | some b =>
          if btw = 0 then (bytesWritten, dev, bitmap, direct)
          else
            VFS.writeLoopAux bs offset data fuel
              (spliceBlock bs dev b byo ((data.drop bytesWritten).take btw))
              bitmap direct (bytesWritten + btw)
        | none =>
          match firstFalse bitmap with
          | none => (bytesWritten, dev, bitmap, direct)
          | some nb =>
            if btw = 0 then (bytesWritten, dev, bitmap.set nb true, direct.set bo (some nb))
            else
              VFS.writeLoopAux bs offset data fuel
                (spliceBlock bs dev nb byo ((data.drop bytesWritten).take btw))
                (bitmap.set nb true) (direct.set bo (some nb)) (bytesWritten + btw)
      else (bytesWritten, dev, bitmap, direct)
    else (bytesWritten, dev, bitmap, direct)

/-- Each taken iteration writes at least one byte, so `data.length`
iterations of fuel always suffice. -/
def VFS.writeLoop (bs : Nat) (dev : List (List Nat)) (bitmap : List Bool)
    (direct : List (Option Nat)) (offset : Nat) (data : List Nat) (bytesWritten : Nat) :
    Nat × List (List Nat) × List Bool × List (Option Nat) :=
  VFS.writeLoopAux bs offset data (data.length - bytesWritten) dev bitmap direct bytesWritten

/-- `VFS.write`: run the loop, advance the cursor, grow the size to
`max(size, new_cursor)`, persist metadata. -/
def VFS.write (fs : FS) (fd : Nat) (data : List Nat) : Option Nat × FS :=
  match dictGet fs.open_files fd with
  | none => (none, fs)
  | some of =>
    match fs.inodes.getD of.inode none with
    | none => (none, fs)
    | some ino =>
      let r := VFS.writeLoop fs.block_size fs.device fs.block_bitmap ino.direct of.offset data 0
      let newOffset := of.offset + r.1
      let ino' := { ino with direct := r.2.2.2, size := max ino.size newOffset }
      let fs' := { fs with device := r.2.1, block_bitmap := r.2.2.1,
                           inodes := fs.inodes.set of.inode (some ino'),
                           open_files := dictSet fs.open_files fd { of with offset := newOffset } }
      (some r.1, fs'.saveMetadata)

/-- One step of `truncate`'s shrink loop over block indices: free the block
held in slot `i` and clear the slot. -/
def truncStep (q : FS × List (Option Nat)) (i : Nat) : FS × List (Option Nat) :=
  match q.2.getD i none with
  | some b => (q.1.freeBlock b, q.2.set i none)
  | none => q

/-- `VFS.truncate`: shrinking frees the whole blocks beyond the new size and
clears their slots; the size is then set unconditionally.  (`block_size = 0`
would raise ZeroDivisionError in Python; here the divisions return 0 and no
block is freed.) -/
def VFS.truncate (fs : FS) (name : String) (newSize : Nat) : Bool × FS :=
  match dictGet fs.root_directory name with
  | none => (false, fs)
  | some inum =>
    match fs.inodes.getD inum none with
    | none => (false, fs)
    | some ino =>
      let bs := fs.block_size
      let p :=
        if newSize < ino.size then
          let oldBlocks := (ino.size + bs - 1) / bs
          let newBlocks := (newSize + bs - 1) / bs
          (List.range' newBlocks (min oldBlocks ino.direct.length - newBlocks)).foldl
            truncStep (fs, ino.direct)
        else (fs, ino.direct)
      let ino' := { ino with direct := p.2, size := newSize }
      let fs' := { p.1 with inodes := p.1.inodes.set inum (some ino') }
      (true, fs'.saveMetadata)

/-! ### mkfs and operation sequences -/

/-- `FileSystem.__init__(device, max_inodes)`: fresh bitmap and inode table,
then `_reserve_metadata_blocks()`.  The device file does not exist yet. -/
def FS.init (bs total maxInodes : Nat) : FS :=
  FS.reserveMetadataBlocks
    { block_size := bs, total_blocks := total, max_inodes := maxInodes,
      block_bitmap := List.replicate total false,
      inodes := List.replicate maxInodes none,
      root_directory := [], open_files := [], next_fd := 0, device := [] }

/-- `VFS.mkfs(n_inodes)` on a filesystem whose backing store does not exist
yet: create zero-filled storage, set the inode capacity, reserve metadata
blocks (again — the constructor already reserved for its own capacity),
persist. -/
def VFS.mkfs (fs : FS) (nInodes : Nat) : FS :=
  let fs1 := { fs with device := List.replicate fs.total_blocks (List.replicate fs.block_size 0),
                       max_inodes := nInodes, inodes := List.replicate nInodes none }
  let fs2 := fs1.reserveMetadataBlocks
  fs2.saveMetadata

/-- State after constructing `FileSystem(BlockDevice(_, bs, total), c0)` and
running `VFS.mkfs(n)`. -/
def mkfsState (bs total c0 n : Nat) : FS :=
  VFS.mkfs (FS.init bs total c0) n

/-- One VFS operation (return values discarded). -/
inductive Op where
  | create (name : String)
  | openF (name : String)
  | close (fd : Nat)
  | seek (fd : Nat) (offset : Int)
  | readF (fd : Nat) (n : Nat)
  | write (fd : Nat) (data : List Nat)
  | link (a b : String)
  | unlink (name : String)
  | truncate (name : String) (size : Nat)

def applyOp (fs : FS) : Op → FS
  | .create name => (VFS.create fs name).2
  | .openF name => (VFS.openFile fs name).2
  | .close fd => (VFS.close fs fd).2
  | .seek fd off => (VFS.seek fs fd off).2
  | .readF fd n => (VFS.read fs fd n).2
  | .write fd data => (VFS.write fs fd data).2
  | .link a b => (VFS.link fs a b).2
  | .unlink name => (VFS.unlink fs name).2
  | .truncate name s => (VFS.truncate fs name s).2

def runOps (fs : FS) (ops : List Op) : FS :=
  ops.foldl applyOp fs

/-! ### Metadata loading (`load_metadata`), decoding abstracted

`json.loads`/`decode` are Python library calls; they are abstracted as
parameters returning `Option` (`none` models the exception caught by the
`try`/`except`).  Everything else mirrors the source: read block 0, strip
trailing zero bytes, decode, check the magic; read the bitmap from block 1;
concatenate inode blocks until an all-zero block or an out-of-range read;
decode the inode table.  The function is total: every failure path lands in
a `(false, _)` result instead of an exception. -/

structure Superblock where
  magic : String
  root_directory : List (String × Nat)
deriving DecidableEq

def rstripZeros (l : List Nat) : List Nat :=
  (l.reverse.dropWhile (fun x => decide (x = 0))).reverse

/-- `bitarray.frombytes`: most-significant bit first. -/
def byteBits (n : Nat) : List Bool :=
  (List.range 8).map (fun i => decide (n / 2 ^ (7 - i) % 2 = 1))

def bitsFromBytes (l : List Nat) : List Bool :=
  l.foldr (fun b acc => byteBits b ++ acc) []

/-- The inode-reading loop: accumulate blocks from `bn` until an all-zero
block or a failing read (out of range); fuel `total - bn` is exact, since
fuel 0 means `bn ≥ total` where the read raises and the loop breaks. -/
def readInodeChunksAux (dev : List (List Nat)) (bs total : Nat) : Nat → Nat → List Nat
  | 0, _ => []
  | fuel + 1, bn =>
    if bn < total then
      let chunk := dev.getD bn []
      if chunk = List.replicate bs 0 then []
      else chunk ++ readInodeChunksAux dev bs total fuel (bn + 1)
    else []

def readInodeChunks (dev : List (List Nat)) (bs total bn : Nat) : List Nat :=
  readInodeChunksAux dev bs total (total - bn) bn

def FS.loadMetadata (parseSuper : List Nat → Option Superblock)
    (parseInodes : List Nat → Option (List (Option Inode))) (fs : FS) : Bool × FS :=
  match fs.device[0]? with
  | none => (false, fs)
  | some b0 =>
    match parseSuper (rstripZeros b0) with
    | none => (false, fs)
    | some sb =>
      if sb.magic ≠ "MYFS" then (false, fs)
      else
        let fs1 := { fs with root_directory := sb.root_directory }
        match fs1.device[1]? with
        | none => (false, fs1)
        | some b1 =>
          let bits := bitsFromBytes b1
          let bits := if fs1.total_blocks < bits.length then bits.take fs1.total_blocks else bits
          let fs2 := { fs1 with block_bitmap := bits }
          match parseInodes (rstripZeros (readInodeChunks fs2.device fs2.block_size fs2.total_blocks 2)) with
          | none => (false, fs2)
          | some inodeList => (true, { fs2 with inodes := inodeList })

/-! ### Derived quantities used in theorem statements -/

/-- Number of clear bits: how many blocks are free. -/
def countFree : List Bool → Nat
  | [] => 0
  | b :: t => (if b then 0 else 1) + countFree t

/-- Number of block-sized chunks `save_metadata` writes for a payload of
`len` bytes: `ceil(len / bs)`. -/
def numChunks (bs len : Nat) : Nat :=
  (len + bs - 1) / bs

/-- The reserved metadata prefix: `2 + C*64 // B + 1` blocks. -/
def metaBlocks (bs maxInodes : Nat) : Nat :=
  2 + maxInodes * 64 / bs + 1

/-- Whether an operation keeps sizes and cursors within the direct-block
capacity ceiling `ceil` (in bytes): `truncate` must not grow past it and
`seek` must not move past it. -/
def Op.bounded (ceil : Nat) : Op → Prop
  | .truncate _ s => s ≤ ceil
  | .seek _ off => off ≤ (ceil : Int)
  | _ => True

/-- The capacity-ceiling invariant (C1): every inode's size and every open
cursor stays at or below `ceil`, and every inode keeps the default 10
direct slots. -/
def SizeInv (ceil : Nat) (fs : FS) : Prop :=
  (∀ inum ino, fs.inodes.getD inum none = some ino →
    ino.size ≤ ceil ∧ ino.direct.length = 10) ∧
  (∀ fd of, dictGet fs.open_files fd = some of → of.offset ≤ ceil)

/-- Block-ownership exclusivity (C10): `SlotAt fs i k b` says inode `i`'s
direct slot `k` holds block `b`. -/
def SlotAt (fs : FS) (i k b : Nat) : Prop :=
  ∃ ino, fs.inodes.getD i none = some ino ∧ ino.direct.getD k none = some b

/-- The C10 invariant: every block held in a direct slot is marked
allocated, no two distinct slots hold the same block, and no inode has an
indirect block (the indirect path is unimplemented). -/
def BlockInv (fs : FS) : Prop :=
  (∀ i k b, SlotAt fs i k b → fs.block_bitmap.getD b false = true) ∧
  (∀ i k i' k' b, SlotAt fs i k b → SlotAt fs i' k' b → i = i' ∧ k = k') ∧
  (∀ i ino, fs.inodes.getD i none = some ino → ino.indirect = none)

/-- Working invariant for the write and truncate loops: all blocks in the
direct list are marked, all blocks `Other` (held by other inodes) are
marked, the direct list holds no duplicates, and it is disjoint from
`Other`. -/
def DirectInv (bitmap : List Bool) (direct : List (Option Nat)) (Other : Nat → Prop) : Prop :=
  (∀ k b, direct.getD k none = some b → bitmap.getD b false = true) ∧
  (∀ b, Other b → bitmap.getD b false = true) ∧
  (∀ k k2 b, direct.getD k none = some b → direct.getD k2 none = some b → k = k2) ∧
  (∀ k b, direct.getD k none = some b → ¬Other b)

/-- The byte a read of position `pos` yields: the byte inside the block the
direct slot points to, or 0 for a hole. -/
def logByte (bs : Nat) (dev : List (List Nat)) (direct : List (Option Nat)) (pos : Nat) : Nat :=
  match direct.getD (pos / bs) none with
  | some b => (dev.getD b []).getD (pos % bs) 0
  | none => 0

/-- Postcondition of the write loop on a state whose direct slots from the
current block onward are all empty: the loop completes, the written range
reads back as `data`, blocks already marked keep their contents, filled
slots persist, slots below the current block are untouched, the bitmap only
grows, lengths are preserved, newly filled slots hold blocks that were free
before, and the first touched block keeps its old bytes below the splice
point. -/
def WLGood (bs offset : Nat) (data : List Nat) (dev : List (List Nat)) (bitmap : List Bool)
    (direct : List (Option Nat)) (w : Nat)
    (r : Nat × List (List Nat) × List Bool × List (Option Nat)) : Prop :=
  r.1 = data.length ∧
  (∀ p, w ≤ p → p < data.length → ∃ b, r.2.2.2.getD ((offset + p) / bs) none = some b ∧
    b < dev.length ∧ (r.2.1.getD b []).getD ((offset + p) % bs) 0 = data.getD p 0) ∧
  (∀ b, bitmap.getD b false = true → r.2.1.getD b [] = dev.getD b []) ∧
  (∀ j b, direct.getD j none = some b → r.2.2.2.getD j none = some b) ∧
  (∀ j, j < (offset + w) / bs → r.2.2.2.getD j none = direct.getD j none) ∧
  (∀ b, bitmap.getD b false = true → r.2.2.1.getD b false = true) ∧
  r.2.2.1.length = bitmap.length ∧ r.2.1.length = dev.length ∧
  (∀ j, j < dev.length → (r.2.1.getD j []).length = bs) ∧
  (∀ j b, r.2.2.2.getD j none = some b →
    direct.getD j none = some b ∨ bitmap.getD b false = false) ∧
  (w < data.length → ∃ b0, r.2.2.2.getD ((offset + w) / bs) none = some b0 ∧
    bitmap.getD b0 false = false ∧ b0 < dev.length ∧
    ∀ q, q < (offset + w) % bs → (r.2.1.getD b0 []).getD q 0 = (dev.getD b0 []).getD q 0)

instance {ε α : Type} [DecidableEq ε] [DecidableEq α] : DecidableEq (Except ε α) := fun a b =>
  match a, b with
  | .error e, .error f =>
    if h : e = f then isTrue (congrArg Except.error h)
    else isFalse (fun hh => h (Except.error.inj hh))
  | .ok x, .ok y =>
    if h : x = y then isTrue (congrArg Except.ok h)
    else isFalse (fun hh => h (Except.ok.inj hh))
  | .error _, .ok _ => isFalse (fun hh => Except.noConfusion hh)
  | .ok _, .error _ => isFalse (fun hh => Except.noConfusion hh)

/-! ### Concrete scenario states for witnesses and counterexamples

All use tiny geometries so that the kernel can evaluate them: the reserved
metadata prefix `metaBlocks bs C` must fit in `total_blocks` (Python raises
otherwise). -/

/-- A bare filesystem state with an all-free bitmap (as built by the
`FileSystem` constructor before its reservation step), block size 64,
8 blocks, 1 inode slot. -/
def bareC5 : FS :=
  { block_size := 64, total_blocks := 8, max_inodes := 1,
    block_bitmap := List.replicate 8 false,
    inodes := [none], root_directory := [], open_files := [], next_fd := 0, device := [] }

/-- A freshly created file's inode (`create` sets `hard_links = 1`). -/
def freshIno : Inode :=
  { type := "file", hard_links := 1, size := 0, direct := List.replicate 10 none, indirect := none }

/-- A small state with one fresh file "a" open on fd 0 at cursor 0:
block size 160, 5 blocks of which `[0,3)` are reserved metadata. -/
def exState : FS :=
  { block_size := 160, total_blocks := 5, max_inodes := 1,
    block_bitmap := [true, true, true, false, false],
    inodes := [some freshIno],
    root_directory := [("a", 0)],
    open_files := [(0, { inode := 0, offset := 0 })], next_fd := 1,
    device := List.replicate 5 (List.replicate 160 0) }

/-- mkfs with block size 16, 16 blocks, 1 inode; then create "a" and open
it (fd 0, cursor 0).  The reserved metadata prefix is `[0, 7)`; writing a
file and saving metadata will spill JSON chunks past it. -/
def preC2 : FS :=
  (VFS.openFile ((VFS.create (mkfsState 16 16 1 1) "a").2) "a").2

/-- mkfs with block size 16, 16 blocks, 2 inodes; write one block of 0x41
to file "a", close and unlink it (freeing block 11 with its contents
intact), then create "b", open it (fd 1) and seek to offset 8.  The next
write will reallocate dirty block 11. -/
def preC7 : FS :=
  (VFS.seek
    (VFS.openFile ((VFS.create ((VFS.unlink ((VFS.close
      ((VFS.write (VFS.openFile ((VFS.create (mkfsState 16 16 2 2) "a").2) "a").2 0
        (List.replicate 16 65)).2) 0).2) "a").2) "b").2) "b").2 1 8).2

/-- mkfs with block size 64, 8 blocks, 1 inode; create "a", open it twice
(fds 0 and 1), close fd 0. -/
def fdState : FS :=
  (VFS.close (VFS.openFile (VFS.openFile ((VFS.create (mkfsState 64 8 1 1) "a").2) "a").2 "a").2 0).2

/-- A tiny block device: 2 blocks of 4 bytes, zero-filled. -/
def exDev : BlockDevice :=
  { block_size := 4, total_blocks := 2, content := List.replicate 8 0 }

end MyFS

namespace MyFS

/-! ## Helper lemmas: lists and dictionaries -/

theorem getD_set_eq {α : Type} (l : List α) (i : Nat) (v d : α) (h : i < l.length) :
    (l.set i v).getD i d = v := by
  induction l generalizing i with
  | nil => simp at h
  | cons a t ih =>
    cases i with
    | zero => simp
    | succ n => simpa using ih n (by simpa using h)

theorem getD_set_ne {α : Type} (l : List α) (i j : Nat) (v d : α) (h : i ≠ j) :
    (l.set i v).getD j d = l.getD j d := by
  induction l generalizing i j with
  | nil => simp
  | cons a t ih =>
    cases i with
    | zero =>
      cases j with
      | zero => exact absurd rfl h
      | succ m => simp
    | succ n =>
      cases j with
      | zero => simp
      | succ m => simpa using ih n m (by omega)

theorem getD_lt_length {α : Type} (l : List α) (i : Nat) (d v : α) (h : l.getD i d = v)
    (hne : v ≠ d) : i < l.length := by
  by_contra hge
  rw [List.getD_eq_default] at h
  · exact hne h.symm
  · omega

theorem dictGet_le_maxKey (l : List (Nat × OpenFile)) (k : Nat) :
    (dictGet l k).isSome → k ≤ maxKey l := by
  induction l with
  | nil => intro h; simp [dictGet] at h
  | cons p t ih =>
    obtain ⟨a, b⟩ := p
    intro h
    simp only [dictGet] at h
    simp only [maxKey, List.foldr]
    by_cases hk : a = k
    · rw [hk]
      exact Nat.le_max_left _ _
    · rw [if_neg hk] at h
      exact le_trans (ih h) (Nat.le_max_right _ _)

theorem dictGet_mem {α β : Type} [DecidableEq α] (l : List (α × β)) (k : α) (v : β)
    (h : dictGet l k = some v) : (k, v) ∈ l := by
  induction l with
  | nil => simp [dictGet] at h
  | cons p t ih =>
    obtain ⟨a, b⟩ := p
    by_cases hk : a = k
    · subst hk
      simp [dictGet] at h
      simp [h]
    · rw [dictGet, if_neg hk] at h
      exact List.mem_cons_of_mem _ (ih h)

theorem dictGet_dictSet_eq {α β : Type} [DecidableEq α] (l : List (α × β)) (k : α) (v : β) :
    dictGet (dictSet l k v) k = some v := by
  induction l with
  | nil => simp [dictSet, dictGet]
  | cons p t ih =>
    obtain ⟨a, b⟩ := p
    by_cases hk : a = k
    · simp [dictSet, hk, dictGet]
    · simp only [dictSet, if_neg hk, dictGet]
      exact ih

theorem dictGet_dictSet_ne {α β : Type} [DecidableEq α] (l : List (α × β)) (k k' : α) (v : β)
    (h : k' ≠ k) : dictGet (dictSet l k v) k' = dictGet l k' := by
  induction l with
  | nil =>
    simp only [dictSet, dictGet]
    rw [if_neg (show ¬k = k' from fun hh => h hh.symm)]
  | cons p t ih =>
    obtain ⟨a, b⟩ := p
    by_cases hk : a = k
    · subst hk
      simp only [dictSet, if_pos rfl, dictGet]
      rw [if_neg (fun hh => h hh.symm), if_neg]
      intro hh
      exact h hh.symm
    · simp only [dictSet, if_neg hk, dictGet]
      by_cases hk' : a = k'
      · rw [if_pos hk', if_pos hk']
      · rw [if_neg hk', if_neg hk']
        exact ih

theorem dictGet_dictErase_eq {α β : Type} [DecidableEq α] (l : List (α × β)) (k : α) :
    dictGet (dictErase l k) k = none := by
  induction l with
  | nil => rfl
  | cons p t ih =>
    obtain ⟨a, b⟩ := p
    by_cases hk : a = k
    · simpa [dictErase, List.filter, hk] using ih
    · simpa [dictErase, List.filter, hk, dictGet] using ih

theorem dictGet_dictErase_ne {α β : Type} [DecidableEq α] (l : List (α × β)) (k k' : α)
    (h : k' ≠ k) : dictGet (dictErase l k) k' = dictGet l k' := by
  induction l with
  | nil => rfl
  | cons p t ih =>
    obtain ⟨a, b⟩ := p
    by_cases hk : a = k
    · subst hk
      simp only [dictErase, List.filter, decide_not]
      simp only [decide_eq_decide.mpr (Iff.rfl), decide_True, Bool.not_true]
      simp only [dictGet]
      rw [if_neg (fun hh => h hh.symm)]
      simpa [dictErase] using ih
    · simp only [dictErase, List.filter, decide_not]
      have : (decide (a = k)) = false := by simpa using hk
      rw [this]
      simp only [Bool.not_false, dictGet]
      by_cases hk' : a = k'
      · rw [if_pos hk', if_pos hk']
      · rw [if_neg hk', if_neg hk']
        simpa [dictErase] using ih

/-! ## Helper lemmas: `save_metadata` touches only the device -/

theorem writeBlockN_proj {γ : Type} (f : FS → γ)
    (hf : ∀ fs dev, f { fs with device := dev } = f fs) (fs : FS) (i : Nat) (data : List Nat) :
    f (fs.writeBlockN i data) = f fs := by
  unfold FS.writeBlockN
  split
  · exact hf _ _
  · rfl

theorem saveInodeChunksAux_proj {γ : Type} (f : FS → γ)
    (hf : ∀ fs dev, f { fs with device := dev } = f fs) :
    ∀ (fuel : Nat) (fs : FS) (bn : Nat) (rest : List Nat),
      f (FS.saveInodeChunksAux fuel fs bn rest) = f fs := by
  intro fuel
  induction fuel with
  | zero => intro fs bn rest; rfl
  | succ n ih =>
    intro fs bn rest
    rw [FS.saveInodeChunksAux]
    split
    · rfl
    · rw [ih]
      exact writeBlockN_proj f hf _ _ _

theorem saveInodeChunks_proj {γ : Type} (f : FS → γ)
    (hf : ∀ fs dev, f { fs with device := dev } = f fs) (fs : FS) (bn : Nat) (rest : List Nat) :
    f (fs.saveInodeChunks bn rest) = f fs :=
  saveInodeChunksAux_proj f hf _ fs bn rest

theorem saveMetadata_proj {γ : Type} (f : FS → γ)
    (hf : ∀ fs dev, f { fs with device := dev } = f fs) (fs : FS) :
    f fs.saveMetadata = f fs := by
  unfold FS.saveMetadata
  rw [saveInodeChunks_proj f hf, writeBlockN_proj f hf, writeBlockN_proj f hf]

theorem saveMetadata_bitmap (fs : FS) : fs.saveMetadata.block_bitmap = fs.block_bitmap :=
  saveMetadata_proj FS.block_bitmap (fun _ _ => rfl) fs

theorem saveMetadata_inodes (fs : FS) : fs.saveMetadata.inodes = fs.inodes :=
  saveMetadata_proj FS.inodes (fun _ _ => rfl) fs

theorem saveMetadata_open_files (fs : FS) : fs.saveMetadata.open_files = fs.open_files :=
  saveMetadata_proj FS.open_files (fun _ _ => rfl) fs

theorem saveMetadata_root (fs : FS) : fs.saveMetadata.root_directory = fs.root_directory :=
  saveMetadata_proj FS.root_directory (fun _ _ => rfl) fs

theorem saveMetadata_next_fd (fs : FS) : fs.saveMetadata.next_fd = fs.next_fd :=
  saveMetadata_proj FS.next_fd (fun _ _ => rfl) fs

theorem saveMetadata_bs (fs : FS) : fs.saveMetadata.block_size = fs.block_size :=
  saveMetadata_proj FS.block_size (fun _ _ => rfl) fs

theorem saveMetadata_total (fs : FS) : fs.saveMetadata.total_blocks = fs.total_blocks :=
  saveMetadata_proj FS.total_blocks (fun _ _ => rfl) fs

theorem saveMetadata_max_inodes (fs : FS) : fs.saveMetadata.max_inodes = fs.max_inodes :=
  saveMetadata_proj FS.max_inodes (fun _ _ => rfl) fs

end MyFS

namespace MyFS

/-! ## C1: the size-capacity invariant -/

/-- C1 counterexample: from mkfs (block size 16, 16 blocks, 1 inode slot),
`create "a"` followed by `truncate "a" 1000` leaves an inode of size 1000,
and `create; open; seek 2000; write [1]` leaves an inode of size 2000, both
exceeding the claimed ceiling `10 * block_size = 160`; so the stated
invariant fails on reachable states. -/
theorem C1_counterexample :
    ((runOps (mkfsState 16 16 1 1) [.create "a", .truncate "a" 1000]).inodes.getD 0 none).map
        Inode.size = some 1000 ∧
    ((runOps (mkfsState 16 16 1 1)
        [.create "a", .openF "a", .seek 0 2000, .write 0 [1]]).inodes.getD 0 none).map
        Inode.size = some 2000 ∧
    ¬(1000 ≤ 10 * (mkfsState 16 16 1 1).block_size) ∧
    ¬(2000 ≤ 10 * (mkfsState 16 16 1 1).block_size) :=
  ⟨by decide, by decide, by decide, by decide⟩

/-! ## C5: metadata reservation geometry -/

/-- C5 counterexample: with capacity 1 and block size 64 the claim's
formula gives `M = 2 + ceil(64/64) = 3`, yet the code marks block 3 as
well (it computes `2 + 64 // 64 + 1 = 4`): the reservation is not
"exactly `[0, M)`" for the claimed `M`. -/
theorem C5_counterexample :
    (FS.reserveMetadataBlocks bareC5).block_bitmap.getD 3 false = true ∧
    ¬(3 < 2 + (bareC5.max_inodes * 64 + bareC5.block_size - 1) / bareC5.block_size) :=
  ⟨by decide, by decide⟩

/-! ## C6: fd allocation -/

/-- C6 counterexample: after opening fds 0 and 1 and closing fd 0, fd 0 is
absent from the fd table (so the lowest free fd is 0), yet the next open
returns fd 2 — the scan starts at `next_fd`, which only grows, so closed
fd values are never reused. -/
theorem C6_counterexample :
    dictGet fdState.open_files 0 = none ∧
    (VFS.openFile fdState "a").1 = some 2 ∧
    (2 : Nat) ≠ 0 :=
  ⟨by decide, by decide, by decide⟩

/-! ## C9: device range guard -/

/-- C9 counterexample: index `-1` lies outside `[0, total_blocks)` but
`read_block` does not fail with the out-of-range error there — the guard
only checks `block_num >= total_blocks` and the negative index dies later
in the file seek with a different error. -/
theorem C9_counterexample :
    BlockDevice.read_block exDev (-1) = Except.error DevError.negSeek ∧
    Except.error (α := List Nat) DevError.negSeek ≠ Except.error DevError.outOfRange ∧
    ((-1 : Int) < 0 ∧ ¬((exDev.total_blocks : Int) ≤ -1)) :=
  ⟨by decide, by decide, by decide, by decide⟩

end MyFS

namespace MyFS

/-! ## C2: write/seek/read round-trip -/

/-- C2 counterexample: in `preC2` file "a" is freshly created (all direct
slots empty, size 0), fd 0 has cursor 0, 9 blocks are free and `N = 20` is
far below the `10 * 16` capacity — every premise of the claim holds.  The
write itself succeeds (20 bytes into blocks 7 and 8), but `save_metadata`
then writes 9 JSON chunks over blocks `[2, 11)` while only `[0, 7)` are
reserved, overwriting the file's data; the subsequent read returns JSON
fragments instead of the written bytes. -/
theorem C2_counterexample :
    dictGet preC2.open_files 0 = some { inode := 0, offset := 0 } ∧
    preC2.inodes.getD 0 none = some freshIno ∧
    countFree preC2.block_bitmap = 9 ∧
    (20 : Nat) ≤ 10 * preC2.block_size ∧
    (VFS.write preC2 0 (List.replicate 20 255)).1 = some 20 ∧
    (VFS.read ((VFS.seek (VFS.write preC2 0 (List.replicate 20 255)).2 0 0).2) 0 20).1 ≠
      some (List.replicate 20 255) :=
  ⟨by decide, by decide, by decide, by decide, by decide, by decide⟩

/-! ## C7: sparse holes read as zeros -/

/-- C7 counterexample: in `preC7` file "b" is freshly created and fd 1 has
been seeked to offset 8, beyond the current size 0 — a sparse write
position.  But block 11, freed when "a" was unlinked, still holds the bytes
of "a"; the write reallocates it, and reading from offset 0 returns those
stale bytes in the untouched prefix instead of zeros. -/
theorem C7_counterexample :
    dictGet preC7.open_files 1 = some { inode := 0, offset := 8 } ∧
    preC7.inodes.getD 0 none = some freshIno ∧
    (VFS.write preC7 1 (List.replicate 4 66)).1 = some 4 ∧
    (VFS.read ((VFS.seek (VFS.write preC7 1 (List.replicate 4 66)).2 1 0).2) 1 12).1 =
      some (List.replicate 8 65 ++ List.replicate 4 66) ∧
    List.replicate 8 65 ++ List.replicate 4 66 ≠ List.replicate 8 0 ++ (List.replicate 4 66 : List Nat) :=
  ⟨by decide, by decide, by decide, by decide, by decide⟩

/-! ## C8: load_metadata -/

/-- C8: `loadMetadata` is a total function into `Bool × FS` (no exception
can escape: every decode failure is a `none` of the abstracted parser and
lands in a `(false, _)` result), and it returns `true` exactly when block 0
exists and decodes to a superblock whose magic tag is `"MYFS"`, block 1
exists, and the collected inode chunks decode; in particular it returns
`false` whenever block 0 does not decode to a superblock carrying the
expected magic tag or any decode step fails. -/
theorem C8_load_metadata (parseSuper : List Nat → Option Superblock)
    (parseInodes : List Nat → Option (List (Option Inode))) (fs : FS) :
    (FS.loadMetadata parseSuper parseInodes fs).1 = true ↔
      ((∃ b0 sb, fs.device[0]? = some b0 ∧ parseSuper (rstripZeros b0) = some sb ∧
          sb.magic = "MYFS") ∧
        (∃ b1, fs.device[1]? = some b1) ∧
        (∃ il, parseInodes
          (rstripZeros (readInodeChunks fs.device fs.block_size fs.total_blocks 2)) = some il)) := by
  unfold FS.loadMetadata
  cases h0 : fs.device[0]? with
  | none => simp [h0]
  | some b0 =>
    cases hps : parseSuper (rstripZeros b0) with
    | none => simp [h0, hps]
    | some sb =>
      by_cases hmag : sb.magic = "MYFS"
      · cases h1 : fs.device[1]? with
        | none => simp [h0, hps, h1, hmag]
        | some b1 =>
          cases hpi : parseInodes
              (rstripZeros (readInodeChunks fs.device fs.block_size fs.total_blocks 2)) with
          | none => simp [h0, hps, h1, hpi, hmag]
          | some il => simp [h0, hps, h1, hpi, hmag]
      · simp [h0, hps, hmag]

end MyFS

namespace MyFS

/-! ## More list helpers -/

theorem getD_ext {α : Type} (d : α) (l₁ l₂ : List α) (hlen : l₁.length = l₂.length)
    (h : ∀ j, l₁.getD j d = l₂.getD j d) : l₁ = l₂ := by
  induction l₁ generalizing l₂ with
  | nil =>
    cases l₂ with
    | nil => rfl
    | cons b t => simp at hlen
  | cons a t ih =>
    cases l₂ with
    | nil => simp at hlen
    | cons b t' =>
      have h0 := h 0
      simp only [List.getD_cons_zero] at h0
      subst h0
      have := ih t' (by simpa using hlen) (fun j => by simpa using h (j + 1))
      rw [this]

theorem take_append_self {α : Type} (l₁ l₂ : List α) : (l₁ ++ l₂).take l₁.length = l₁ := by
  induction l₁ with
  | nil => rfl
  | cons a t ih => simpa using ih

theorem drop_append_self {α : Type} (l₁ l₂ : List α) : (l₁ ++ l₂).drop l₁.length = l₂ := by
  induction l₁ with
  | nil => rfl
  | cons a t ih => simpa using ih

theorem normBlock_length (bs : Nat) (data : List Nat) : (normBlock bs data).length = bs := by
  simp [normBlock]
  omega

theorem drop_take_middle {α : Type} (l₁ seg l₂ : List α) (n m : Nat) (h₁ : l₁.length = n)
    (h₂ : seg.length = m) : ((l₁ ++ (seg ++ l₂)).drop n).take m = seg := by
  subst h₁
  subst h₂
  rw [drop_append_self, take_append_self]

/-! ## C9 (amended): device range behaviour -/

/-- C9 (amended): `read_block`/`write_block` fail with the out-of-range
error exactly when `total_blocks ≤ i`; every `i` in `[0, total_blocks)`
succeeds — the read returns `block_size` bytes and the write stores the
data right-padded with zeros or truncated to a block, as reading it back
shows; a negative index, however, passes the range guard and fails at the
backing-file seek with a distinct error, not the out-of-range one. -/
theorem C9_amended (d : BlockDevice) (data : List Nat)
    (hwf : d.content.length = d.total_blocks * d.block_size) :
    (∀ i : Int, (d.total_blocks : Int) ≤ i →
      d.read_block i = .error .outOfRange ∧ d.write_block i data = .error .outOfRange) ∧
    (∀ i : Int, 0 ≤ i → i < (d.total_blocks : Int) →
      (∃ bytes, d.read_block i = .ok bytes ∧ bytes.length = d.block_size) ∧
      (∃ d', d.write_block i data = .ok d' ∧
        d'.read_block i = .ok (normBlock d.block_size data))) ∧
    (∀ i : Int, i < 0 →
      d.read_block i = .error .negSeek ∧ d.write_block i data = .error .negSeek ∧
      d.read_block i ≠ .error .outOfRange) := by
  refine ⟨?_, ?_, ?_⟩
  · intro i hi
    constructor
    · rw [BlockDevice.read_block, if_pos hi]
    · rw [BlockDevice.write_block, if_pos hi]
  · intro i h0 hi
    have hnr : ¬((d.total_blocks : Int) ≤ i) := by omega
    have hnneg : ¬(i < 0) := by omega
    have hlt : i.toNat < d.total_blocks := by omega
    have hmul : i.toNat * d.block_size + d.block_size ≤ d.content.length := by
      rw [hwf]
      calc i.toNat * d.block_size + d.block_size = (i.toNat + 1) * d.block_size := by ring
        _ ≤ d.total_blocks * d.block_size := Nat.mul_le_mul_right _ (by omega)
    constructor
    · refine ⟨_, by rw [BlockDevice.read_block, if_neg hnr, if_neg hnneg], ?_⟩
      simp only [List.length_take, List.length_drop]
      omega
    · refine ⟨_, by rw [BlockDevice.write_block, if_neg hnr, if_neg hnneg], ?_⟩
      rw [BlockDevice.read_block]
      simp only [spliceAt, normBlock_length]
      rw [if_neg hnr, if_neg hnneg]
      have hpos : i.toNat * d.block_size ≤ d.content.length := by omega
      rw [Nat.sub_eq_zero_of_le hpos, List.replicate_zero, List.append_nil]
      have htk : (d.content.take (i.toNat * d.block_size)).length = i.toNat * d.block_size := by
        simp only [List.length_take]
        omega
      congr 1
      rw [List.append_assoc]
      exact drop_take_middle _ _ _ _ _ htk (normBlock_length _ _)
  · intro i hi
    have hnr : ¬((d.total_blocks : Int) ≤ i) := by omega
    refine ⟨by rw [BlockDevice.read_block, if_neg hnr, if_pos hi],
      by rw [BlockDevice.write_block, if_neg hnr, if_pos hi], ?_⟩
    rw [BlockDevice.read_block, if_neg hnr, if_pos hi]
    intro h
    exact absurd (Except.error.inj h) (by decide)

/-- C9 witness: the general theorem applied to the concrete 2-block
device. -/
theorem C9_amended_witness :
    exDev.content.length = exDev.total_blocks * exDev.block_size ∧
    BlockDevice.read_block exDev 2 = Except.error DevError.outOfRange ∧
    (∃ bytes, BlockDevice.read_block exDev 1 = Except.ok bytes ∧ bytes.length = exDev.block_size) :=
  ⟨by decide, ((C9_amended exDev [9] (by decide)).1 2 (by decide)).1,
    ((C9_amended exDev [9] (by decide)).2.1 1 (by decide) (by decide)).1⟩

end MyFS

namespace MyFS

/-! ## C5 (amended): reservation marks exactly the `3 + C*64/B` prefix -/

theorem foldlSet_length (m : Nat) (l : List Bool) :
    ((List.range m).foldl (fun bm i => bm.set i true) l).length = l.length := by
  induction m generalizing l with
  | zero => rfl
  | succ m ih =>
    rw [List.range_succ, List.foldl_append]
    simp only [List.foldl_cons, List.foldl_nil]
    rw [List.length_set, ih]

theorem foldlSet_getD (m j : Nat) (l : List Bool) :
    ((List.range m).foldl (fun bm i => bm.set i true) l).getD j false =
      if j < m ∧ j < l.length then true else l.getD j false := by
  induction m with
  | zero => simp
  | succ m ih =>
    rw [List.range_succ, List.foldl_append]
    simp only [List.foldl_cons, List.foldl_nil]
    by_cases hj : j = m
    · subst hj
      by_cases hlen : j < l.length
      · rw [getD_set_eq _ _ _ _ (by rw [foldlSet_length]; exact hlen)]
        rw [if_pos ⟨by omega, hlen⟩]
      · rw [List.getD_eq_default _ _ (by rw [List.length_set, foldlSet_length]; omega)]
        rw [if_neg (by omega)]
        rw [List.getD_eq_default _ _ (by omega)]
    · rw [getD_set_ne _ _ _ _ _ (fun hh => hj hh.symm), ih]
      by_cases hc : j < m ∧ j < l.length
      · rw [if_pos hc, if_pos ⟨by omega, hc.2⟩]
      · rw [if_neg hc, if_neg (by omega)]

/-- C5 (amended): `_reserve_metadata_blocks` with inode capacity `C` and
block size `B` marks exactly the blocks `[0, M)` in the free-block bitmap
where `M = 2 + (C * 64) / B + 1` — that is, one more than the claimed
`2 + ceil(C*64/B)` whenever `B` divides `C * 64`, and equal to it otherwise
— no other block is marked, and reserving again changes nothing
(idempotence). -/
theorem C5_amended (fs : FS)
    (hfree : ∀ j, fs.block_bitmap.getD j false = false)
    (hM : metaBlocks fs.block_size fs.max_inodes ≤ fs.block_bitmap.length) :
    (∀ j, (FS.reserveMetadataBlocks fs).block_bitmap.getD j false = true ↔
        j < metaBlocks fs.block_size fs.max_inodes) ∧
    FS.reserveMetadataBlocks (FS.reserveMetadataBlocks fs) = FS.reserveMetadataBlocks fs := by
  constructor
  · intro j
    show ((List.range (2 + fs.max_inodes * 64 / fs.block_size + 1)).foldl
        (fun bm i => bm.set i true) fs.block_bitmap).getD j false = true ↔ _
    rw [foldlSet_getD]
    unfold metaBlocks at *
    by_cases hc : j < 2 + fs.max_inodes * 64 / fs.block_size + 1
    · rw [if_pos ⟨hc, by omega⟩]
      simp [hc]
    · rw [if_neg (by omega)]
      rw [hfree j]
      simp [hc]
  · show FS.reserveMetadataBlocks { fs with block_bitmap := _ } = _
    unfold FS.reserveMetadataBlocks
    have hbm : ((List.range (2 + fs.max_inodes * 64 / fs.block_size + 1)).foldl
          (fun bm i => bm.set i true)
          ((List.range (2 + fs.max_inodes * 64 / fs.block_size + 1)).foldl
            (fun bm i => bm.set i true) fs.block_bitmap)) =
        ((List.range (2 + fs.max_inodes * 64 / fs.block_size + 1)).foldl
          (fun bm i => bm.set i true) fs.block_bitmap) := by
      apply getD_ext false
      · rw [foldlSet_length, foldlSet_length]
      · intro j
        rw [foldlSet_getD, foldlSet_getD, foldlSet_length]
        by_cases hc : j < 2 + fs.max_inodes * 64 / fs.block_size + 1 ∧ j < fs.block_bitmap.length
        · rw [if_pos hc, if_pos hc]
        · rw [if_neg hc, if_neg hc]
    simp only [hbm]

/-- C5 witness: the amended theorem applied to the bare 8-block state with
capacity 1 and block size 64, where `M = 4`. -/
theorem C5_amended_witness :
    (∀ j, bareC5.block_bitmap.getD j false = false) ∧
    metaBlocks bareC5.block_size bareC5.max_inodes ≤ bareC5.block_bitmap.length ∧
    ((FS.reserveMetadataBlocks bareC5).block_bitmap.getD 3 false = true ↔
      3 < metaBlocks bareC5.block_size bareC5.max_inodes) :=
  ⟨fun j => by
      rcases Nat.lt_or_ge j 8 with h | h
      · interval_cases j <;> decide
      · exact List.getD_eq_default _ _ (by simpa [bareC5] using h),
    by decide,
    (C5_amended bareC5
      (fun j => by
        rcases Nat.lt_or_ge j 8 with h | h
        · interval_cases j <;> decide
        · exact List.getD_eq_default _ _ (by simpa [bareC5] using h))
      (by decide)).1 3⟩

/-! ## C6 (amended): fd allocation scans upward from `next_fd` -/

theorem findFdAux_spec :
    ∀ (fuel : Nat) (tbl : List (Nat × OpenFile)) (fd : Nat), maxKey tbl + 1 ≤ fd + fuel →
      dictGet tbl (findFdAux fuel tbl fd) = none ∧ fd ≤ findFdAux fuel tbl fd ∧
        ∀ g, fd ≤ g → g < findFdAux fuel tbl fd → (dictGet tbl g).isSome := by
  intro fuel
  induction fuel with
  | zero =>
    intro tbl fd hinv
    refine ⟨?_, le_rfl, fun g hg hlt => absurd (lt_of_le_of_lt hg hlt) (lt_irrefl _)⟩
    cases hd : dictGet tbl fd with
    | none => exact hd
    | some v =>
      have := dictGet_le_maxKey tbl fd (by rw [hd]; rfl)
      omega
  | succ fuel ih =>
    intro tbl fd hinv
    rw [findFdAux]
    by_cases h : (dictGet tbl fd).isSome
    · rw [if_pos h]
      obtain ⟨h1, h2, h3⟩ := ih tbl (fd + 1) (by omega)
      refine ⟨h1, by omega, fun g hg hlt => ?_⟩
      rcases Nat.eq_or_lt_of_le hg with he | hgt
      · exact he ▸ h
      · exact h3 g (by omega) hlt
    · rw [if_neg h]
      refine ⟨?_, le_rfl, fun g hg hlt => absurd (lt_of_le_of_lt hg hlt) (lt_irrefl _)⟩
      cases hd : dictGet tbl fd with
      | none => rfl
      | some v => rw [hd] at h; exact absurd rfl h

/-- C6 (amended): a successful open returns the lowest fd **at or above
`next_fd`** that is not in the fd table (not the globally lowest free fd:
`next_fd` only ever grows, so fd values freed by close are never reused),
with the new descriptor's cursor initialized to 0 and `next_fd` advanced
past the returned fd. -/
theorem C6_amended (fs : FS) (name : String) (inum : Nat) (ino : Inode)
    (hname : dictGet fs.root_directory name = some inum)
    (hino : fs.inodes.getD inum none = some ino) :
    ∃ fd, (VFS.openFile fs name).1 = some fd ∧
      dictGet fs.open_files fd = none ∧
      fs.next_fd ≤ fd ∧
      (∀ g, fs.next_fd ≤ g → g < fd → (dictGet fs.open_files g).isSome) ∧
      dictGet (VFS.openFile fs name).2.open_files fd = some { inode := inum, offset := 0 } ∧
      (VFS.openFile fs name).2.next_fd = fd + 1 := by
  obtain ⟨h1, h2, h3⟩ := findFdAux_spec (maxKey fs.open_files + 1 - fs.next_fd) fs.open_files
    fs.next_fd (by omega)
  refine ⟨findFd fs.open_files fs.next_fd, ?_, h1, h2, h3, ?_, ?_⟩
  · simp only [VFS.openFile, hname, hino]
  · simp only [VFS.openFile, hname, hino]
    exact dictGet_dictSet_eq _ _ _
  · simp only [VFS.openFile, hname, hino]

/-- C6 witness: opening "a" in `exState` (where fd 0 is taken and
`next_fd = 1`) returns fd 1 with cursor 0. -/
theorem C6_amended_witness :
    dictGet exState.root_directory "a" = some 0 ∧
    exState.inodes.getD 0 none = some freshIno ∧
    (∃ fd, (VFS.openFile exState "a").1 = some fd ∧
      dictGet exState.open_files fd = none ∧
      exState.next_fd ≤ fd ∧
      (∀ g, exState.next_fd ≤ g → g < fd → (dictGet exState.open_files g).isSome) ∧
      dictGet (VFS.openFile exState "a").2.open_files fd = some { inode := 0, offset := 0 } ∧
      (VFS.openFile exState "a").2.next_fd = fd + 1) :=
  ⟨by decide, by decide, C6_amended exState "a" 0 freshIno (by decide) (by decide)⟩

end MyFS

namespace MyFS

/-! ## C3: deferred deletion with open descriptors -/

/-- C3: when `unlink` removes the last directory entry of an inode (link
count 1 before the call) while an open descriptor still references it, the
inode-table slot keeps the inode (only its link count drops to 0) and the
free-block bitmap is unchanged, so all its blocks stay allocated; `read`
and `write` on that descriptor still succeed; and a subsequent `close`
merely removes the fd-table entry, freeing neither the inode slot nor any
block.  (Deletion happens inside `unlink` only when the link count reaches
0 and no open descriptor references the inode.) -/
theorem C3_deferred_deletion (fs : FS) (name : String) (inum fd : Nat) (ino : Inode)
    (of : OpenFile)
    (hname : dictGet fs.root_directory name = some inum)
    (hino : fs.inodes.getD inum none = some ino)
    (hlinks : ino.hard_links = 1)
    (hfd : dictGet fs.open_files fd = some of)
    (hof : of.inode = inum) :
    (VFS.unlink fs name).1 = true ∧
    (VFS.unlink fs name).2.block_bitmap = fs.block_bitmap ∧
    (VFS.unlink fs name).2.inodes.getD inum none = some { ino with hard_links := 0 } ∧
    (∀ n, ∃ r, (VFS.read (VFS.unlink fs name).2 fd n).1 = some r) ∧
    (∀ d, ∃ k, (VFS.write (VFS.unlink fs name).2 fd d).1 = some k) ∧
    (VFS.close (VFS.unlink fs name).2 fd).1 = true ∧
    (VFS.close (VFS.unlink fs name).2 fd).2.inodes = (VFS.unlink fs name).2.inodes ∧
    (VFS.close (VFS.unlink fs name).2 fd).2.block_bitmap = (VFS.unlink fs name).2.block_bitmap ∧
    (VFS.close (VFS.unlink fs name).2 fd).2.open_files =
      dictErase (VFS.unlink fs name).2.open_files fd := by
  have hany : fs.open_files.any (fun p => decide (p.2.inode = inum)) = true := by
    rw [List.any_eq_true]
    exact ⟨(fd, of), dictGet_mem _ _ _ hfd, by simp [hof]⟩
  have hres : VFS.unlink fs name =
      (true, (FS.saveMetadata { fs with
        inodes := fs.inodes.set inum (some { ino with hard_links := ino.hard_links - 1 }),
        root_directory := dictErase fs.root_directory name })) := by
    simp only [VFS.unlink, hname, hino, hlinks]
    norm_num
    rw [if_pos hany]
  have hOF : (VFS.unlink fs name).2.open_files = fs.open_files := by
    rw [hres, saveMetadata_open_files]
  have hlen : inum < fs.inodes.length :=
    getD_lt_length _ _ _ _ hino (by simp)
  have hIN : (VFS.unlink fs name).2.inodes =
      fs.inodes.set inum (some { ino with hard_links := ino.hard_links - 1 }) := by
    rw [hres, saveMetadata_inodes]
  have hINo : (VFS.unlink fs name).2.inodes.getD inum none =
      some { ino with hard_links := 0 } := by
    rw [hIN, getD_set_eq _ _ _ _ (by simpa using hlen), hlinks]
    norm_num
  refine ⟨by rw [hres], by rw [hres, saveMetadata_bitmap], hINo, ?_, ?_, ?_, ?_, ?_, ?_⟩
  · intro n
    simp only [VFS.read, hOF, hfd, hof, hINo]
    by_cases hsz : ({ ino with hard_links := 0 } : Inode).size ≤ of.offset
    · rw [if_pos hsz]
      exact ⟨[], rfl⟩
    · rw [if_neg hsz]
      exact ⟨_, rfl⟩
  · intro d
    simp only [VFS.write, hOF, hfd, hof, hINo]
    exact ⟨_, rfl⟩
  · simp [VFS.close, hOF, hfd]
  · simp [VFS.close, hOF, hfd]
  · simp [VFS.close, hOF, hfd]
  · simp [VFS.close, hOF, hfd]

/-- C3 witness: the scenario in `exState` ("a" has link count 1 and fd 0
is open on its inode). -/
theorem C3_deferred_deletion_witness :
    dictGet exState.root_directory "a" = some 0 ∧
    exState.inodes.getD 0 none = some freshIno ∧
    freshIno.hard_links = 1 ∧
    dictGet exState.open_files 0 = some { inode := 0, offset := 0 } ∧
    (VFS.unlink exState "a").1 = true ∧
    (VFS.unlink exState "a").2.block_bitmap = exState.block_bitmap ∧
    (VFS.unlink exState "a").2.inodes.getD 0 none = some { freshIno with hard_links := 0 } :=
  ⟨by decide, by decide, by decide, by decide,
    (C3_deferred_deletion exState "a" 0 0 freshIno { inode := 0, offset := 0 }
      (by decide) (by decide) (by decide) (by decide) (by decide)).1,
    (C3_deferred_deletion exState "a" 0 0 freshIno { inode := 0, offset := 0 }
      (by decide) (by decide) (by decide) (by decide) (by decide)).2.1,
    (C3_deferred_deletion exState "a" 0 0 freshIno { inode := 0, offset := 0 }
      (by decide) (by decide) (by decide) (by decide) (by decide)).2.2.1⟩

end MyFS

namespace MyFS

/-! ## C4: write is total after the checks and stops early on capacity -/

theorem writeLoopAux_progress (bs offset : Nat) (data : List Nat) (hbs : 0 < bs) :
    ∀ (fuel : Nat) (dev : List (List Nat)) (bitmap : List Bool) (direct : List (Option Nat))
      (w : Nat), w ≤ data.length → data.length - w ≤ fuel →
      w ≤ (VFS.writeLoopAux bs offset data fuel dev bitmap direct w).1 ∧
      (VFS.writeLoopAux bs offset data fuel dev bitmap direct w).1 ≤ data.length ∧
      (VFS.writeLoopAux bs offset data fuel dev bitmap direct w).2.2.2.length = direct.length ∧
      ((VFS.writeLoopAux bs offset data fuel dev bitmap direct w).1 < data.length →
        direct.length ≤ (offset + (VFS.writeLoopAux bs offset data fuel dev bitmap direct w).1) / bs ∨
        firstFalse (VFS.writeLoopAux bs offset data fuel dev bitmap direct w).2.2.1 = none) := by
  intro fuel
  induction fuel with
  | zero =>
    intro dev bitmap direct w hw hfuel
    rw [VFS.writeLoopAux]
    exact ⟨le_rfl, hw, rfl, fun hlt => absurd hlt (by omega)⟩
  | succ fuel ih =>
    intro dev bitmap direct w hw hfuel
    rw [VFS.writeLoopAux]
    dsimp only
    by_cases hwlt : w < data.length
    · rw [if_pos hwlt]
      have hbyo : (offset + w) % bs < bs := Nat.mod_lt _ hbs
      have hbtw : ¬(min (data.length - w) (bs - (offset + w) % bs) = 0) := by omega
      by_cases hbo : (offset + w) / bs < direct.length
      · rw [if_pos hbo]
        cases hslot : direct.getD ((offset + w) / bs) none with
        | some b =>
          dsimp only
          rw [if_neg hbtw]
          have hr := ih
            (spliceBlock bs dev b ((offset + w) % bs)
              ((data.drop w).take (min (data.length - w) (bs - (offset + w) % bs))))
            bitmap direct (w + min (data.length - w) (bs - (offset + w) % bs))
            (by omega) (by omega)
          exact ⟨by omega, hr.2.1, hr.2.2.1, hr.2.2.2⟩
        | none =>
          dsimp only
          cases hff : firstFalse bitmap with
          | none =>
            dsimp only
            exact ⟨le_rfl, by omega, rfl, fun hlt => Or.inr hff⟩
          | some nb =>
            dsimp only
            rw [if_neg hbtw]
            have hr := ih
              (spliceBlock bs dev nb ((offset + w) % bs)
                ((data.drop w).take (min (data.length - w) (bs - (offset + w) % bs))))
              (bitmap.set nb true) (direct.set ((offset + w) / bs) (some nb))
              (w + min (data.length - w) (bs - (offset + w) % bs)) (by omega) (by omega)
            refine ⟨by omega, hr.2.1, by rw [hr.2.2.1, List.length_set], fun hlt => ?_⟩
            rcases hr.2.2.2 hlt with hcap | hal
            · left
              rwa [List.length_set] at hcap
            · right
              exact hal
      · rw [if_neg hbo]
        dsimp only
        exact ⟨le_rfl, by omega, rfl, fun hlt => Or.inl (by omega)⟩
    · rw [if_neg hwlt]
      dsimp only
      exact ⟨le_rfl, hw, rfl, fun hlt => absurd hlt (by omega)⟩

/-- C4: once the descriptor and inode checks have passed, `write` always
returns a byte count (never an error): some `n ≤ len(data)`, and a short
count `n < len(data)` arises only because the next byte's block index
reached the direct-block capacity or because no free block was left to
allocate — capacity exhaustion is signalled by the short count alone. -/
theorem C4_write_short_count (fs : FS) (fd : Nat) (data : List Nat) (of : OpenFile)
    (ino : Inode)
    (hfd : dictGet fs.open_files fd = some of)
    (hino : fs.inodes.getD of.inode none = some ino)
    (hbs : 0 < fs.block_size) :
    ∃ n, (VFS.write fs fd data).1 = some n ∧ n ≤ data.length ∧
      (n < data.length →
        ino.direct.length ≤ (of.offset + n) / fs.block_size ∨
        firstFalse (VFS.write fs fd data).2.block_bitmap = none) := by
  have hr := writeLoopAux_progress fs.block_size of.offset data hbs (data.length - 0)
    fs.device fs.block_bitmap ino.direct 0 (by omega) (by omega)
  refine ⟨(VFS.writeLoopAux fs.block_size of.offset data (data.length - 0) fs.device
      fs.block_bitmap ino.direct 0).1, ?_, hr.2.1, ?_⟩
  · simp only [VFS.write, hfd, hino, VFS.writeLoop]
  · intro hlt
    rcases hr.2.2.2 hlt with hcap | hal
    · exact Or.inl hcap
    · right
      simp only [VFS.write, hfd, hino, VFS.writeLoop, saveMetadata_bitmap]
      exact hal

/-- C4 witness: writing 3 bytes through fd 0 in `exState`. -/
theorem C4_write_short_count_witness :
    dictGet exState.open_files 0 = some { inode := 0, offset := 0 } ∧
    exState.inodes.getD 0 none = some freshIno ∧
    0 < exState.block_size ∧
    (∃ n, (VFS.write exState 0 [1, 2, 3]).1 = some n ∧ n ≤ [1, 2, 3].length ∧
      (n < [1, 2, 3].length →
        freshIno.direct.length ≤ (({ inode := 0, offset := 0 } : OpenFile).offset + n) /
          exState.block_size ∨
        firstFalse (VFS.write exState 0 [1, 2, 3]).2.block_bitmap = none)) :=
  ⟨by decide, by decide, by decide,
    C4_write_short_count exState 0 [1, 2, 3] { inode := 0, offset := 0 } freshIno
      (by decide) (by decide) (by decide)⟩

end MyFS

namespace MyFS

/-! ## Shapes of the VFS operations

Each operation either leaves the state unchanged (a failed check) or
produces a state of a known record shape; the invariant proofs below case
on these shapes. -/

theorem freeBlock_proj {γ : Type} (f : FS → γ)
    (hbm : ∀ fs bm, f { fs with block_bitmap := bm } = f fs) (fs : FS) (b : Nat) :
    f (fs.freeBlock b) = f fs := by
  unfold FS.freeBlock
  split
  · exact hbm _ _
  · rfl

theorem freeDirectFold_proj {γ : Type} (f : FS → γ)
    (hbm : ∀ fs bm, f { fs with block_bitmap := bm } = f fs) :
    ∀ (l : List (Option Nat)) (fs : FS), f (l.foldl freeDirectStep fs) = f fs := by
  intro l
  induction l with
  | nil => intro fs; rfl
  | cons ob t ih =>
    intro fs
    rw [List.foldl_cons, ih]
    cases ob with
    | none => rfl
    | some b => exact freeBlock_proj f hbm fs b

theorem truncFold_proj {γ : Type} (f : FS → γ)
    (hbm : ∀ fs bm, f { fs with block_bitmap := bm } = f fs) :
    ∀ (l : List Nat) (fs : FS) (direct : List (Option Nat)),
      f ((l.foldl truncStep (fs, direct)).1) = f fs := by
  intro l
  induction l with
  | nil => intro fs direct; rfl
  | cons i t ih =>
    intro fs direct
    rw [List.foldl_cons]
    cases hslot : direct.getD i none with
    | none =>
      rw [show truncStep (fs, direct) i = (fs, direct) from by unfold truncStep; rw [hslot]]
      exact ih fs direct
    | some b =>
      rw [show truncStep (fs, direct) i = (fs.freeBlock b, direct.set i none) from by
        unfold truncStep; rw [hslot]]
      rw [ih]
      exact freeBlock_proj f hbm fs b

theorem truncFold_direct_length :
    ∀ (l : List Nat) (fs : FS) (direct : List (Option Nat)),
      ((l.foldl truncStep (fs, direct)).2).length = direct.length := by
  intro l
  induction l with
  | nil => intro fs direct; rfl
  | cons i t ih =>
    intro fs direct
    rw [List.foldl_cons]
    cases hslot : direct.getD i none with
    | none =>
      rw [show truncStep (fs, direct) i = (fs, direct) from by unfold truncStep; rw [hslot]]
      exact ih fs direct
    | some b =>
      rw [show truncStep (fs, direct) i = (fs.freeBlock b, direct.set i none) from by
        unfold truncStep; rw [hslot]]
      rw [ih, List.length_set]

theorem reserve_proj {γ : Type} (f : FS → γ)
    (hbm : ∀ fs bm, f { fs with block_bitmap := bm } = f fs) (fs : FS) :
    f fs.reserveMetadataBlocks = f fs := by
  unfold FS.reserveMetadataBlocks
  exact hbm _ _

theorem create_cases (fs : FS) (name : String) :
    (VFS.create fs name).2 = fs ∨
    ∃ inum, (VFS.create fs name).2 = FS.saveMetadata { fs with
      inodes := fs.inodes.set inum (some { Inode.init "file" with hard_links := 1 }),
      root_directory := dictSet fs.root_directory name inum } := by
  unfold VFS.create
  split
  · exact Or.inl rfl
  · split
    · exact Or.inl rfl
    · rename_i inum heq
      exact Or.inr ⟨inum, rfl⟩

theorem openFile_cases (fs : FS) (name : String) :
    (VFS.openFile fs name).2 = fs ∨
    ∃ inum, (VFS.openFile fs name).2 = { fs with
      open_files := dictSet fs.open_files (findFd fs.open_files fs.next_fd)
        { inode := inum, offset := 0 },
      next_fd := findFd fs.open_files fs.next_fd + 1 } := by
  unfold VFS.openFile
  split
  · exact Or.inl rfl
  · rename_i inum heq
    split
    · exact Or.inl rfl
    · exact Or.inr ⟨inum, rfl⟩

theorem close_cases (fs : FS) (fd : Nat) :
    (VFS.close fs fd).2 = fs ∨
    (VFS.close fs fd).2 = { fs with open_files := dictErase fs.open_files fd } := by
  unfold VFS.close
  split
  · exact Or.inr rfl
  · exact Or.inl rfl

theorem seek_cases (fs : FS) (fd : Nat) (off : Int) :
    (VFS.seek fs fd off).2 = fs ∨
    ∃ of, dictGet fs.open_files fd = some of ∧ (VFS.seek fs fd off).2 = { fs with
      open_files := dictSet fs.open_files fd { of with offset := off.toNat } } := by
  unfold VFS.seek
  split
  · exact Or.inl rfl
  · rename_i of heq
    exact Or.inr ⟨of, heq, rfl⟩

theorem read_cases (fs : FS) (fd : Nat) (n : Nat) :
    (VFS.read fs fd n).2 = fs ∨
    ∃ of ino, dictGet fs.open_files fd = some of ∧
      fs.inodes.getD of.inode none = some ino ∧ ¬(ino.size ≤ of.offset) ∧
      (VFS.read fs fd n).2 = { fs with
        open_files := dictSet fs.open_files fd { of with offset := of.offset +
          (VFS.readLoop fs.block_size fs.device ino.direct of.offset
            (min n (ino.size - of.offset)) 0 []).2 } } := by
  unfold VFS.read
  split
  · exact Or.inl rfl
  · rename_i of heq
    split
    · exact Or.inl rfl
    · rename_i ino heq2
      split
      · exact Or.inl rfl
      · rename_i hsz
        exact Or.inr ⟨of, ino, heq, heq2, hsz, rfl⟩

theorem write_cases (fs : FS) (fd : Nat) (data : List Nat) :
    (VFS.write fs fd data).2 = fs ∨
    ∃ of ino, dictGet fs.open_files fd = some of ∧
      fs.inodes.getD of.inode none = some ino ∧
      (VFS.write fs fd data).2 = FS.saveMetadata { fs with
        device := (VFS.writeLoop fs.block_size fs.device fs.block_bitmap ino.direct
          of.offset data 0).2.1,
        block_bitmap := (VFS.writeLoop fs.block_size fs.device fs.block_bitmap ino.direct
          of.offset data 0).2.2.1,
        inodes := fs.inodes.set of.inode (some { ino with
          direct := (VFS.writeLoop fs.block_size fs.device fs.block_bitmap ino.direct
            of.offset data 0).2.2.2,
          size := max ino.size (of.offset + (VFS.writeLoop fs.block_size fs.device
            fs.block_bitmap ino.direct of.offset data 0).1) }),
        open_files := dictSet fs.open_files fd { of with offset := of.offset +
          (VFS.writeLoop fs.block_size fs.device fs.block_bitmap ino.direct
            of.offset data 0).1 } } := by
  unfold VFS.write
  split
  · exact Or.inl rfl
  · rename_i of heq
    split
    · exact Or.inl rfl
    · rename_i ino heq2
      exact Or.inr ⟨of, ino, heq, heq2, rfl⟩

theorem link_cases (fs : FS) (n1 n2 : String) :
    (VFS.link fs n1 n2).2 = fs ∨
    ∃ inum ino, fs.inodes.getD inum none = some ino ∧
      (VFS.link fs n1 n2).2 = FS.saveMetadata { fs with
        inodes := fs.inodes.set inum (some { ino with hard_links := ino.hard_links + 1 }),
        root_directory := dictSet fs.root_directory n2 inum } := by
  unfold VFS.link
  split
  · exact Or.inl rfl
  · split
    · exact Or.inl rfl
    · rename_i inum heq
      split
      · exact Or.inl rfl
      · rename_i ino heq2
        exact Or.inr ⟨inum, ino, heq2, rfl⟩

theorem unlink_cases (fs : FS) (name : String) :
    (VFS.unlink fs name).2 = fs ∨
    ∃ inum ino, dictGet fs.root_directory name = some inum ∧
      fs.inodes.getD inum none = some ino ∧
      ((VFS.unlink fs name).2 = FS.saveMetadata { fs with
          inodes := fs.inodes.set inum (some { ino with hard_links := ino.hard_links - 1 }),
          root_directory := dictErase fs.root_directory name } ∨
        (VFS.unlink fs name).2 = FS.saveMetadata (VFS.deleteInode { fs with
          inodes := fs.inodes.set inum (some { ino with hard_links := ino.hard_links - 1 }),
          root_directory := dictErase fs.root_directory name } inum)) := by
  unfold VFS.unlink
  split
  · exact Or.inl rfl
  · rename_i inum heq
    split
    · exact Or.inl rfl
    · rename_i ino heq2
      refine Or.inr ⟨inum, ino, heq, heq2, ?_⟩
      dsimp only
      split
      · split
        · exact Or.inl rfl
        · exact Or.inr rfl
      · exact Or.inl rfl

theorem truncate_cases (fs : FS) (name : String) (s : Nat) :
    (VFS.truncate fs name s).2 = fs ∨
    ∃ (inum : Nat) (ino : Inode) (l : List Nat), dictGet fs.root_directory name = some inum ∧
      fs.inodes.getD inum none = some ino ∧
      (VFS.truncate fs name s).2 = FS.saveMetadata {
        (List.foldl truncStep (fs, ino.direct) l).1 with
        inodes := ((List.foldl truncStep (fs, ino.direct) l).1).inodes.set inum (some { ino with
          direct := (List.foldl truncStep (fs, ino.direct) l).2, size := s }) } := by
  unfold VFS.truncate
  split
  · exact Or.inl rfl
  · rename_i inum heq
    split
    · exact Or.inl rfl
    · rename_i ino heq2
      refine Or.inr ⟨inum, ino, ?_⟩
      dsimp only
      split
      · exact ⟨List.range' ((s + fs.block_size - 1) / fs.block_size)
          (min ((ino.size + fs.block_size - 1) / fs.block_size) ino.direct.length -
            (s + fs.block_size - 1) / fs.block_size), heq, heq2, rfl⟩
      · exact ⟨[], heq, heq2, rfl⟩

end MyFS

namespace MyFS

/-! ## Bounds on the loops and dictionary updates -/

theorem readLoopAux_bound (bs : Nat) (dev : List (List Nat)) (direct : List (Option Nat))
    (offset actual : Nat) :
    ∀ (fuel br : Nat) (acc : List Nat), br ≤ actual →
      (VFS.readLoopAux bs dev direct offset actual fuel br acc).2 ≤ actual := by
  intro fuel
  induction fuel with
  | zero => intro br acc h; exact h
  | succ fuel ih =>
    intro br acc h
    rw [VFS.readLoopAux]
    dsimp only
    by_cases h1 : br < actual
    · rw [if_pos h1]
      by_cases h2 : (offset + br) / bs < direct.length
      · rw [if_pos h2]
        by_cases h3 : min (actual - br) (bs - (offset + br) % bs) = 0
        · rw [if_pos h3]
          exact h
        · rw [if_neg h3]
          cases hslot : direct.getD ((offset + br) / bs) none with
          | none => exact ih _ _ (by omega)
          | some b => exact ih _ _ (by omega)
      · rw [if_neg h2]
        exact h
    · rw [if_neg h1]
      exact h

theorem writeLoopAux_direct_length (bs offset : Nat) (data : List Nat) :
    ∀ (fuel : Nat) (dev : List (List Nat)) (bitmap : List Bool) (direct : List (Option Nat))
      (w : Nat),
      (VFS.writeLoopAux bs offset data fuel dev bitmap direct w).2.2.2.length = direct.length := by
  intro fuel
  induction fuel with
  | zero => intro dev bitmap direct w; rfl
  | succ fuel ih =>
    intro dev bitmap direct w
    rw [VFS.writeLoopAux]
    dsimp only
    by_cases h1 : w < data.length
    · rw [if_pos h1]
      by_cases h2 : (offset + w) / bs < direct.length
      · rw [if_pos h2]
        cases hslot : direct.getD ((offset + w) / bs) none with
        | some b =>
          dsimp only
          by_cases h3 : min (data.length - w) (bs - (offset + w) % bs) = 0
          · rw [if_pos h3]
          · rw [if_neg h3]
            exact ih _ _ _ _
        | none =>
          dsimp only
          cases hff : firstFalse bitmap with
          | none => rfl
          | some nb =>
            dsimp only
            by_cases h3 : min (data.length - w) (bs - (offset + w) % bs) = 0
            · rw [if_pos h3]
              dsimp only
              rw [List.length_set]
            · rw [if_neg h3]
              rw [ih _ _ _ _, List.length_set]
      · rw [if_neg h2]
    · rw [if_neg h1]

theorem writeLoopAux_offset_bound (bs offset : Nat) (data : List Nat) :
    ∀ (fuel : Nat) (dev : List (List Nat)) (bitmap : List Bool) (direct : List (Option Nat))
      (w : Nat), offset + w ≤ direct.length * bs →
      offset + (VFS.writeLoopAux bs offset data fuel dev bitmap direct w).1 ≤
        direct.length * bs := by
  intro fuel
  induction fuel with
  | zero => intro dev bitmap direct w h; exact h
  | succ fuel ih =>
    intro dev bitmap direct w h
    rw [VFS.writeLoopAux]
    dsimp only
    by_cases h1 : w < data.length
    · rw [if_pos h1]
      by_cases h2 : (offset + w) / bs < direct.length
      · rw [if_pos h2]
        have hdm := Nat.div_add_mod (offset + w) bs
        have hmul : bs * ((offset + w) / bs + 1) ≤ bs * direct.length :=
          Nat.mul_le_mul_left _ (by omega)
        have hexp : bs * ((offset + w) / bs + 1) = bs * ((offset + w) / bs) + bs := by ring
        have hcomm : bs * direct.length = direct.length * bs := Nat.mul_comm _ _
        cases hslot : direct.getD ((offset + w) / bs) none with
        | some b =>
          dsimp only
          by_cases h3 : min (data.length - w) (bs - (offset + w) % bs) = 0
          · rw [if_pos h3]
            exact h
          · rw [if_neg h3]
            exact ih _ _ _ _ (by omega)
        | none =>
          dsimp only
          cases hff : firstFalse bitmap with
          | none => exact h
          | some nb =>
            dsimp only
            by_cases h3 : min (data.length - w) (bs - (offset + w) % bs) = 0
            · rw [if_pos h3]
              exact h
            · rw [if_neg h3]
              have := ih (spliceBlock bs dev nb ((offset + w) % bs)
                  ((data.drop w).take (min (data.length - w) (bs - (offset + w) % bs))))
                (bitmap.set nb true) (direct.set ((offset + w) / bs) (some nb))
                (w + min (data.length - w) (bs - (offset + w) % bs))
                (by rw [List.length_set]; omega)
              rwa [List.length_set] at this
      · rw [if_neg h2]
        exact h
    · rw [if_neg h1]
      exact h

theorem dictGet_dictErase_sub {α β : Type} [DecidableEq α] (l : List (α × β)) (k k' : α)
    (v : β) (h : dictGet (dictErase l k) k' = some v) : dictGet l k' = some v := by
  by_cases hk : k' = k
  · subst hk
    rw [dictGet_dictErase_eq] at h
    cases h
  · rwa [dictGet_dictErase_ne _ _ _ hk] at h

theorem dictGet_dictSet_rev {α β : Type} [DecidableEq α] (l : List (α × β)) (k k' : α)
    (v w : β) (h : dictGet (dictSet l k v) k' = some w) :
    (k' = k ∧ w = v) ∨ dictGet l k' = some w := by
  by_cases hk : k' = k
  · subst hk
    rw [dictGet_dictSet_eq] at h
    exact Or.inl ⟨rfl, (Option.some.inj h).symm⟩
  · rw [dictGet_dictSet_ne _ _ _ _ hk] at h
    exact Or.inr h

theorem getD_set_rev {α : Type} (l : List α) (i j : Nat) (v d x : α)
    (h : (l.set i v).getD j d = x) (hx : x ≠ d) :
    (j = i ∧ j < l.length ∧ x = v) ∨ (j ≠ i ∧ l.getD j d = x) := by
  by_cases hij : j = i
  · subst hij
    have hlen : j < l.length := by
      have := getD_lt_length _ _ _ _ h hx
      simpa [List.length_set] using this
    rw [getD_set_eq _ _ _ _ hlen] at h
    exact Or.inl ⟨rfl, hlen, h.symm⟩
  · rw [getD_set_ne _ _ _ _ _ (fun he => hij he.symm)] at h
    exact Or.inr ⟨hij, h⟩

/-! ## Projections of composite operations -/

theorem deleteInode_proj {γ : Type} (f : FS → γ)
    (hbm : ∀ fs bm, f { fs with block_bitmap := bm } = f fs)
    (hin : ∀ fs ins, f { fs with inodes := ins } = f fs) (fs : FS) (inum : Nat) :
    f (VFS.deleteInode fs inum) = f fs := by
  unfold VFS.deleteInode
  cases h : fs.inodes.getD inum none with
  | none => rfl
  | some ino =>
    dsimp only
    rw [hin]
    cases ino.indirect with
    | none => exact freeDirectFold_proj f hbm _ _
    | some b =>
      rw [freeBlock_proj f hbm]
      exact freeDirectFold_proj f hbm _ _

theorem deleteInode_inodes (fs : FS) (inum : Nat) :
    (VFS.deleteInode fs inum).inodes = fs.inodes ∨
    (VFS.deleteInode fs inum).inodes = fs.inodes.set inum none := by
  unfold VFS.deleteInode
  cases h : fs.inodes.getD inum none with
  | none => exact Or.inl rfl
  | some ino =>
    right
    dsimp only
    have h1 : (List.foldl freeDirectStep fs ino.direct).inodes = fs.inodes :=
      freeDirectFold_proj FS.inodes (fun _ _ => rfl) _ _
    cases ino.indirect with
    | none => rw [h1]
    | some b =>
      rw [freeBlock_proj FS.inodes (fun _ _ => rfl), h1]

theorem mkfsState_bs (bs total c0 n : Nat) : (mkfsState bs total c0 n).block_size = bs := by
  unfold mkfsState VFS.mkfs
  rw [saveMetadata_bs, reserve_proj FS.block_size (fun _ _ => rfl)]
  dsimp only
  unfold FS.init
  rw [reserve_proj FS.block_size (fun _ _ => rfl)]

theorem mkfsState_inodes (bs total c0 n : Nat) :
    (mkfsState bs total c0 n).inodes = List.replicate n none := by
  unfold mkfsState VFS.mkfs
  rw [saveMetadata_inodes, reserve_proj FS.inodes (fun _ _ => rfl)]

theorem mkfsState_open_files (bs total c0 n : Nat) :
    (mkfsState bs total c0 n).open_files = [] := by
  unfold mkfsState VFS.mkfs
  rw [saveMetadata_open_files, reserve_proj FS.open_files (fun _ _ => rfl)]
  dsimp only
  unfold FS.init
  rw [reserve_proj FS.open_files (fun _ _ => rfl)]

theorem applyOp_bs (fs : FS) (op : Op) : (applyOp fs op).block_size = fs.block_size := by
  cases op with
  | create name =>
    rcases create_cases fs name with h | ⟨inum, h⟩
    · simp only [applyOp, h]
    · simp only [applyOp, h, saveMetadata_bs]
  | openF name =>
    rcases openFile_cases fs name with h | ⟨inum, h⟩ <;> simp only [applyOp, h]
  | close fd =>
    rcases close_cases fs fd with h | h <;> simp only [applyOp, h]
  | seek fd off =>
    rcases seek_cases fs fd off with h | ⟨of, hof, h⟩ <;> simp only [applyOp, h]
  | readF fd n =>
    rcases read_cases fs fd n with h | ⟨of, ino, hof, hino, hsz, h⟩ <;> simp only [applyOp, h]
  | write fd data =>
    rcases write_cases fs fd data with h | ⟨of, ino, hof, hino, h⟩
    · simp only [applyOp, h]
    · simp only [applyOp, h, saveMetadata_bs]
  | link a b =>
    rcases link_cases fs a b with h | ⟨inum, ino, hino, h⟩
    · simp only [applyOp, h]
    · simp only [applyOp, h, saveMetadata_bs]
  | unlink name =>
    rcases unlink_cases fs name with h | ⟨inum, ino, hname, hino, h | h⟩
    · simp only [applyOp, h]
    · simp only [applyOp, h, saveMetadata_bs]
    · simp only [applyOp, h, saveMetadata_bs]
      rw [deleteInode_proj FS.block_size (fun _ _ => rfl) (fun _ _ => rfl)]
  | truncate name s =>
    rcases truncate_cases fs name s with h | ⟨inum, ino, l, hname, hino, h⟩
    · simp only [applyOp, h]
    · simp only [applyOp, h, saveMetadata_bs]
      exact truncFold_proj FS.block_size (fun _ _ => rfl) _ _ _

end MyFS

namespace MyFS

/-! ## C1 (amended): the size ceiling holds for bounded operation sequences -/

theorem sizeInv_saveMetadata (c : Nat) (X : FS) : SizeInv c X.saveMetadata ↔ SizeInv c X := by
  unfold SizeInv
  rw [saveMetadata_inodes, saveMetadata_open_files]

theorem sizeInv_applyOp (fs : FS) (op : Op) (hb : Op.bounded (10 * fs.block_size) op)
    (hinv : SizeInv (10 * fs.block_size) fs) :
    SizeInv (10 * fs.block_size) (applyOp fs op) := by
  obtain ⟨hI, hO⟩ := hinv
  cases op with
  | create name =>
    rcases create_cases fs name with h | ⟨inum, h⟩
    · simp only [applyOp, h]
      exact ⟨hI, hO⟩
    · simp only [applyOp, h, sizeInv_saveMetadata]
      refine ⟨fun i ino hi => ?_, hO⟩
      rcases getD_set_rev _ _ _ _ _ _ hi (by simp) with ⟨heq, hlt, hv⟩ | ⟨hne, hv⟩
      · cases Option.some.inj hv
        exact ⟨Nat.zero_le _, rfl⟩
      · exact hI i ino hv
  | openF name =>
    rcases openFile_cases fs name with h | ⟨inum, h⟩
    · simp only [applyOp, h]
      exact ⟨hI, hO⟩
    · simp only [applyOp, h]
      refine ⟨hI, fun fd of hof => ?_⟩
      rcases dictGet_dictSet_rev _ _ _ _ _ hof with ⟨heq, hv⟩ | hv
      · rw [hv]
        exact Nat.zero_le _
      · exact hO fd of hv
  | close fd =>
    rcases close_cases fs fd with h | h
    · simp only [applyOp, h]
      exact ⟨hI, hO⟩
    · simp only [applyOp, h]
      exact ⟨hI, fun fd' of hof => hO fd' of (dictGet_dictErase_sub _ _ _ _ hof)⟩
  | seek fd off =>
    rcases seek_cases fs fd off with h | ⟨of, hof0, h⟩
    · simp only [applyOp, h]
      exact ⟨hI, hO⟩
    · simp only [applyOp, h]
      refine ⟨hI, fun fd' of' hof => ?_⟩
      rcases dictGet_dictSet_rev _ _ _ _ _ hof with ⟨heq, hv⟩ | hv
      · rw [hv]
        exact Int.toNat_le.mpr hb
      · exact hO fd' of' hv
  | readF fd n =>
    rcases read_cases fs fd n with h | ⟨of, ino, hof0, hino0, hsz, h⟩
    · simp only [applyOp, h]
      exact ⟨hI, hO⟩
    · simp only [applyOp, h]
      refine ⟨hI, fun fd' of' hof => ?_⟩
      rcases dictGet_dictSet_rev _ _ _ _ _ hof with ⟨heq, hv⟩ | hv
      · rw [hv]
        have hb2 := readLoopAux_bound fs.block_size fs.device ino.direct of.offset
          (min n (ino.size - of.offset)) (min n (ino.size - of.offset) - 0) 0 []
          (Nat.zero_le _)
        have hsize := (hI of.inode ino hino0).1
        simp only [VFS.readLoop]
        omega
      · exact hO fd' of' hv
  | write fd data =>
    rcases write_cases fs fd data with h | ⟨of, ino, hof0, hino0, h⟩
    · simp only [applyOp, h]
      exact ⟨hI, hO⟩
    · simp only [applyOp, h, sizeInv_saveMetadata]
      have hdl := (hI of.inode ino hino0).2
      have hoff := hO fd of hof0
      have hbound := writeLoopAux_offset_bound fs.block_size of.offset data
        (data.length - 0) fs.device fs.block_bitmap ino.direct 0 (by rw [hdl]; omega)
      rw [hdl] at hbound
      have hdlen := writeLoopAux_direct_length fs.block_size of.offset data
        (data.length - 0) fs.device fs.block_bitmap ino.direct 0
      constructor
      · intro i ino' hi
        rcases getD_set_rev _ _ _ _ _ _ hi (by simp) with ⟨heq, hlt, hv⟩ | ⟨hne, hv⟩
        · cases Option.some.inj hv
          refine ⟨?_, by simpa [VFS.writeLoop, hdl] using hdlen⟩
          have hsize := (hI of.inode ino hino0).1
          simp only [VFS.writeLoop]
          omega
        · exact hI i ino' hv
      · intro fd' of' hof
        rcases dictGet_dictSet_rev _ _ _ _ _ hof with ⟨heq, hv⟩ | hv
        · rw [hv]
          simp only [VFS.writeLoop]
          omega
        · exact hO fd' of' hv
  | link a b =>
    rcases link_cases fs a b with h | ⟨inum, ino, hino0, h⟩
    · simp only [applyOp, h]
      exact ⟨hI, hO⟩
    · simp only [applyOp, h, sizeInv_saveMetadata]
      refine ⟨fun i ino' hi => ?_, hO⟩
      rcases getD_set_rev _ _ _ _ _ _ hi (by simp) with ⟨heq, hlt, hv⟩ | ⟨hne, hv⟩
      · cases Option.some.inj hv
        exact hI inum ino hino0
      · exact hI i ino' hv
  | unlink name =>
    rcases unlink_cases fs name with h | ⟨inum, ino, hname, hino0, h | h⟩
    · simp only [applyOp, h]
      exact ⟨hI, hO⟩
    · simp only [applyOp, h, sizeInv_saveMetadata]
      refine ⟨fun i ino' hi => ?_, hO⟩
      rcases getD_set_rev _ _ _ _ _ _ hi (by simp) with ⟨heq, hlt, hv⟩ | ⟨hne, hv⟩
      · cases Option.some.inj hv
        exact hI inum ino hino0
      · exact hI i ino' hv
    · simp only [applyOp, h, sizeInv_saveMetadata]
      constructor
      · intro i ino' hi
        rcases deleteInode_inodes { fs with
            inodes := fs.inodes.set inum (some { ino with hard_links := ino.hard_links - 1 }),
            root_directory := dictErase fs.root_directory name } inum with hd | hd
        · rw [hd] at hi
          rcases getD_set_rev _ _ _ _ _ _ hi (by simp) with ⟨heq, hlt, hv⟩ | ⟨hne, hv⟩
          · cases Option.some.inj hv
            exact hI inum ino hino0
          · exact hI i ino' hv
        · rw [hd] at hi
          rcases getD_set_rev _ _ _ _ _ _ hi (by simp) with ⟨heq, hlt, hv⟩ | ⟨hne, hv⟩
          · cases hv
          · rcases getD_set_rev _ _ _ _ _ _ hv (by simp) with ⟨heq2, hlt2, hv2⟩ | ⟨hne2, hv2⟩
            · cases Option.some.inj hv2
              exact hI inum ino hino0
            · exact hI i ino' hv2
      · intro fd' of' hof
        rw [deleteInode_proj FS.open_files (fun _ _ => rfl) (fun _ _ => rfl)] at hof
        exact hO fd' of' hof
  | truncate name s =>
    rcases truncate_cases fs name s with h | ⟨inum, ino, l, hname, hino0, h⟩
    · simp only [applyOp, h]
      exact ⟨hI, hO⟩
    · simp only [applyOp, h, sizeInv_saveMetadata]
      constructor
      · intro i ino' hi
        have hIN : (List.foldl truncStep (fs, ino.direct) l).1.inodes = fs.inodes :=
          truncFold_proj FS.inodes (fun _ _ => rfl) _ _ _
        dsimp only at hi
        rw [hIN] at hi
        rcases getD_set_rev _ _ _ _ _ _ hi (by simp) with ⟨heq, hlt, hv⟩ | ⟨hne, hv⟩
        · cases Option.some.inj hv
          refine ⟨hb, ?_⟩
          rw [truncFold_direct_length]
          exact (hI inum ino hino0).2
        · exact hI i ino' hv
      · intro fd' of' hof
        have hOFeq : (List.foldl truncStep (fs, ino.direct) l).1.open_files = fs.open_files :=
          truncFold_proj FS.open_files (fun _ _ => rfl) _ _ _
        dsimp only at hof
        rw [hOFeq] at hof
        exact hO fd' of' hof

/-- C1 (amended): the invariant `size ≤ 10 * block_size` (the direct-block
capacity ceiling) holds in every state reachable from mkfs by operation
sequences in which every `truncate` size and every `seek` offset is at most
the ceiling; without that restriction the invariant fails, since `truncate`
stores any requested size and `write` after a far `seek` sets
`size = max(size, cursor)` even when it writes 0 bytes. -/
theorem C1_amended (bs total c0 n : Nat) (ops : List Op)
    (hops : ∀ op ∈ ops, op.bounded (10 * bs)) :
    ∀ inum ino, (runOps (mkfsState bs total c0 n) ops).inodes.getD inum none = some ino →
      ino.size ≤ 10 * bs := by
  suffices H : ∀ (ops : List Op) (fs : FS), (∀ op ∈ ops, op.bounded (10 * fs.block_size)) →
      SizeInv (10 * fs.block_size) fs → SizeInv (10 * fs.block_size) (runOps fs ops) by
    intro inum ino hi
    have hbs0 := mkfsState_bs bs total c0 n
    have hinit : SizeInv (10 * (mkfsState bs total c0 n).block_size) (mkfsState bs total c0 n) := by
      constructor
      · intro i ino' hgi
        rw [mkfsState_inodes] at hgi
        rcases Nat.lt_or_ge i n with hlt | hge
        · rw [List.getD_eq_getElem _ _ (by simpa using hlt)] at hgi
          simp at hgi
        · rw [List.getD_eq_default _ _ (by simpa using hge)] at hgi
          cases hgi
      · intro fd of hgo
        rw [mkfsState_open_files] at hgo
        cases hgo
    have := (H ops (mkfsState bs total c0 n) (by rw [hbs0]; exact hops) hinit).1 inum ino hi
    rw [hbs0] at this
    exact this.1
  intro ops
  induction ops with
  | nil => intro fs hops2 hinv; exact hinv
  | cons op t ih =>
    intro fs hops2 hinv
    show SizeInv _ (runOps (applyOp fs op) t)
    have hbs2 := applyOp_bs fs op
    have h1 : SizeInv (10 * (applyOp fs op).block_size) (applyOp fs op) := by
      rw [hbs2]
      exact sizeInv_applyOp fs op (hops2 op (List.mem_cons_self _ _)) hinv
    have h2 := ih (applyOp fs op) (by rw [hbs2]; exact fun o ho => hops2 o (List.mem_cons_of_mem _ ho)) h1
    rw [hbs2] at h2
    exact h2

/-- C1 witness: a bounded trace (truncate to 100 ≤ 160) on the small
geometry keeps every inode within the ceiling. -/
theorem C1_amended_witness :
    (∀ op ∈ [Op.create "a", Op.truncate "a" 100], op.bounded (10 * 16)) ∧
    (∀ inum ino,
      (runOps (mkfsState 16 16 1 1) [Op.create "a", Op.truncate "a" 100]).inodes.getD inum
        none = some ino → ino.size ≤ 10 * 16) :=
  ⟨by intro op hop; fin_cases hop <;> simp [Op.bounded],
    C1_amended 16 16 1 1 [Op.create "a", Op.truncate "a" 100]
      (by intro op hop; fin_cases hop <;> simp [Op.bounded])⟩

end MyFS

namespace MyFS

/-! ## C10: block-ownership exclusivity -/

theorem firstFalse_spec :
    ∀ (l : List Bool) (n : Nat), firstFalse l = some n →
      n < l.length ∧ l.getD n false = false := by
  intro l
  induction l with
  | nil => intro n h; cases h
  | cons b t ih =>
    intro n h
    unfold firstFalse at h
    by_cases hb : b
    · rw [if_pos hb] at h
      cases hm : firstFalse t with
      | none => rw [hm] at h; cases h
      | some m =>
        rw [hm] at h
        have hn : n = m + 1 := by
          simpa using (Option.some.inj h).symm
        subst hn
        obtain ⟨h1, h2⟩ := ih m hm
        exact ⟨by simpa using h1, by simpa using h2⟩
    · rw [if_neg hb] at h
      have hn : n = 0 := (Option.some.inj h).symm
      subst hn
      refine ⟨by simp, ?_⟩
      simp only [List.getD_cons_zero]
      simpa using hb

theorem blockInv_of_eq (X Y : FS) (hin : X.inodes = Y.inodes)
    (hbm : X.block_bitmap = Y.block_bitmap) : BlockInv X ↔ BlockInv Y := by
  unfold BlockInv SlotAt
  rw [hin, hbm]

theorem blockInv_saveMetadata (X : FS) : BlockInv X.saveMetadata ↔ BlockInv X :=
  blockInv_of_eq _ _ (saveMetadata_inodes X) (saveMetadata_bitmap X)

/-- Allocating a fresh (unmarked) block and storing it in an empty slot
preserves the working invariant. -/
theorem allocStep_directInv (bitmap : List Bool) (direct : List (Option Nat))
    (Other : Nat → Prop) (nb bo : Nat) (hinv : DirectInv bitmap direct Other)
    (hff : firstFalse bitmap = some nb) :
    DirectInv (bitmap.set nb true) (direct.set bo (some nb)) Other := by
  obtain ⟨h1, h2, h3, h4⟩ := hinv
  obtain ⟨hnb, hfree⟩ := firstFalse_spec bitmap nb hff
  refine ⟨?_, ?_, ?_, ?_⟩
  · intro k b hk
    rcases getD_set_rev _ _ _ _ _ _ hk (by simp) with ⟨hkeq, hlt, hv⟩ | ⟨hne, hv⟩
    · cases Option.some.inj hv
      exact getD_set_eq _ _ _ _ hnb
    · have hb : b ≠ nb := by
        intro he
        rw [he] at hv
        rw [h1 k nb hv] at hfree
        cases hfree
      rw [getD_set_ne _ _ _ _ _ (fun he => hb he.symm)]
      exact h1 k b hv
  · intro b hb
    have hne : b ≠ nb := by
      intro he
      rw [he] at hb
      rw [h2 nb hb] at hfree
      cases hfree
    rw [getD_set_ne _ _ _ _ _ (fun he => hne he.symm)]
    exact h2 b hb
  · intro k k2 b hk hk2
    rcases getD_set_rev _ _ _ _ _ _ hk (by simp) with ⟨hkeq, hlt, hv⟩ | ⟨hne, hv⟩ <;>
      rcases getD_set_rev _ _ _ _ _ _ hk2 (by simp) with ⟨hkeq2, hlt2, hv2⟩ | ⟨hne2, hv2⟩
    · rw [hkeq, hkeq2]
    · cases Option.some.inj hv
      rw [h1 k2 nb hv2] at hfree
      cases hfree
    · cases Option.some.inj hv2
      rw [h1 k nb hv] at hfree
      cases hfree
    · exact h3 k k2 b hv hv2
  · intro k b hk hob
    rcases getD_set_rev _ _ _ _ _ _ hk (by simp) with ⟨hkeq, hlt, hv⟩ | ⟨hne, hv⟩
    · cases Option.some.inj hv
      rw [h2 nb hob] at hfree
      cases hfree
    · exact h4 k b hv hob

theorem writeLoopAux_directInv (bs offset : Nat) (data : List Nat) (Other : Nat → Prop) :
    ∀ (fuel : Nat) (dev : List (List Nat)) (bitmap : List Bool) (direct : List (Option Nat))
      (w : Nat), DirectInv bitmap direct Other →
      DirectInv (VFS.writeLoopAux bs offset data fuel dev bitmap direct w).2.2.1
        (VFS.writeLoopAux bs offset data fuel dev bitmap direct w).2.2.2 Other := by
  intro fuel
  induction fuel with
  | zero => intro dev bitmap direct w hinv; exact hinv
  | succ fuel ih =>
    intro dev bitmap direct w hinv
    rw [VFS.writeLoopAux]
    dsimp only
    by_cases h1 : w < data.length
    · rw [if_pos h1]
      by_cases h2 : (offset + w) / bs < direct.length
      · rw [if_pos h2]
        cases hslot : direct.getD ((offset + w) / bs) none with
        | some b =>
          dsimp only
          by_cases h3 : min (data.length - w) (bs - (offset + w) % bs) = 0
          · rw [if_pos h3]
            exact hinv
          · rw [if_neg h3]
            exact ih _ _ _ _ hinv
        | none =>
          dsimp only
          cases hff : firstFalse bitmap with
          | none => exact hinv
          | some nb =>
            dsimp only
            have hstep := allocStep_directInv bitmap direct Other nb ((offset + w) / bs)
              hinv hff
            by_cases h3 : min (data.length - w) (bs - (offset + w) % bs) = 0
            · rw [if_pos h3]
              exact hstep
            · rw [if_neg h3]
              exact ih _ _ _ _ hstep
      · rw [if_neg h2]
        exact hinv
    · rw [if_neg h1]
      exact hinv

theorem truncFold_directInv (Other : Nat → Prop) :
    ∀ (l : List Nat) (fs : FS) (direct : List (Option Nat)),
      DirectInv fs.block_bitmap direct Other →
      DirectInv (List.foldl truncStep (fs, direct) l).1.block_bitmap
        (List.foldl truncStep (fs, direct) l).2 Other := by
  intro l
  induction l with
  | nil => intro fs direct hinv; exact hinv
  | cons i t ih =>
    intro fs direct hinv
    rw [List.foldl_cons]
    cases hslot : direct.getD i none with
    | none =>
      rw [show truncStep (fs, direct) i = (fs, direct) from by unfold truncStep; rw [hslot]]
      exact ih fs direct hinv
    | some b =>
      rw [show truncStep (fs, direct) i = (fs.freeBlock b, direct.set i none) from by
        unfold truncStep; rw [hslot]]
      apply ih
      obtain ⟨h1, h2, h3, h4⟩ := hinv
      have hbm : ∀ b2, b2 ≠ b →
          (fs.freeBlock b).block_bitmap.getD b2 false = fs.block_bitmap.getD b2 false := by
        intro b2 hne
        unfold FS.freeBlock
        split
        · exact getD_set_ne _ _ _ _ _ (fun he => hne he.symm)
        · rfl
      refine ⟨?_, ?_, ?_, ?_⟩
      · intro k b2 hk
        rcases getD_set_rev _ _ _ _ _ _ hk (by simp) with ⟨hkeq, hlt, hv⟩ | ⟨hne, hv⟩
        · cases hv
        · have hb2 : b2 ≠ b := by
            intro he
            subst he
            exact hne (h3 k i b2 hv hslot)
          rw [hbm b2 hb2]
          exact h1 k b2 hv
      · intro b2 hb2
        have hne : b2 ≠ b := by
          intro he
          subst he
          exact h4 i b2 hslot hb2
        rw [hbm b2 hne]
        exact h2 b2 hb2
      · intro k k2 b2 hk hk2
        rcases getD_set_rev _ _ _ _ _ _ hk (by simp) with ⟨hkeq, hlt, hv⟩ | ⟨hne, hv⟩
        · cases hv
        · rcases getD_set_rev _ _ _ _ _ _ hk2 (by simp) with ⟨hkeq2, hlt2, hv2⟩ | ⟨hne2, hv2⟩
          · cases hv2
          · exact h3 k k2 b2 hv hv2
      · intro k b2 hk hob
        rcases getD_set_rev _ _ _ _ _ _ hk (by simp) with ⟨hkeq, hlt, hv⟩ | ⟨hne, hv⟩
        · cases hv
        · exact h4 k b2 hv hob

theorem freeDirectFold_other (Other : Nat → Prop) :
    ∀ (dl : List (Option Nat)) (fs : FS),
      (∀ b, Other b → fs.block_bitmap.getD b false = true) →
      (∀ b, some b ∈ dl → ¬Other b) →
      (∀ b, Other b →
        (List.foldl freeDirectStep fs dl).block_bitmap.getD b false = true) := by
  intro dl
  induction dl with
  | nil => intro fs hm hd b hb; exact hm b hb
  | cons ob t ih =>
    intro fs hm hd b hb
    rw [List.foldl_cons]
    cases ob with
    | none =>
      exact ih fs hm (fun b2 h2 => hd b2 (List.mem_cons_of_mem _ h2)) b hb
    | some bf =>
      refine ih (fs.freeBlock bf) ?_ (fun b2 h2 => hd b2 (List.mem_cons_of_mem _ h2)) b hb
      intro b2 hb2
      have hne : b2 ≠ bf := by
        intro he
        subst he
        exact hd b2 (List.mem_cons_self _ _) hb2
      have : (fs.freeBlock bf).block_bitmap.getD b2 false = fs.block_bitmap.getD b2 false := by
        unfold FS.freeBlock
        split
        · exact getD_set_ne _ _ _ _ _ (fun he => hne he.symm)
        · rfl
      rw [this]
      exact hm b2 hb2

theorem deleteInode_shape (fs : FS) (inum : Nat) (ino : Inode)
    (h : fs.inodes.getD inum none = some ino) (hind : ino.indirect = none) :
    VFS.deleteInode fs inum = { (List.foldl freeDirectStep fs ino.direct) with
      inodes := (List.foldl freeDirectStep fs ino.direct).inodes.set inum none } := by
  unfold VFS.deleteInode
  rw [h]
  dsimp only
  rw [hind]

theorem getD_mem_of_some {α : Type} (l : List (Option α)) (k : Nat) (b : α)
    (h : l.getD k none = some b) : some b ∈ l := by
  have hlt : k < l.length := getD_lt_length _ _ _ _ h (by simp)
  rw [List.getD_eq_getElem _ _ hlt] at h
  rw [← h]
  exact List.getElem_mem hlt

end MyFS

namespace MyFS

theorem getD_replicate_none {α : Type} (n k : Nat) :
    (List.replicate n (none : Option α)).getD k none = none := by
  rcases Nat.lt_or_ge k n with h | h
  · rw [List.getD_eq_getElem _ _ (by simpa using h)]
    simp
  · rw [List.getD_eq_default _ _ (by simpa using h)]

theorem mem_some_getD {α : Type} (l : List (Option α)) (b : α) (h : some b ∈ l) :
    ∃ k, l.getD k none = some b := by
  obtain ⟨n, hn, he⟩ := List.mem_iff_getElem.mp h
  exact ⟨n, by rw [List.getD_eq_getElem _ _ hn, he]⟩

theorem blockInv_applyOp (fs : FS) (op : Op) (hinv : BlockInv fs) :
    BlockInv (applyOp fs op) := by
  obtain ⟨hM, hX, hInd⟩ := hinv
  cases op with
  | create name =>
    rcases create_cases fs name with h | ⟨inum, h⟩
    · simp only [applyOp, h]
      exact ⟨hM, hX, hInd⟩
    · simp only [applyOp, h, blockInv_saveMetadata]
      have hconv : ∀ i k b, SlotAt { fs with
          inodes := fs.inodes.set inum (some { Inode.init "file" with hard_links := 1 }),
          root_directory := dictSet fs.root_directory name inum } i k b → SlotAt fs i k b := by
        intro i k b hs
        obtain ⟨ino', hgi, hgk⟩ := hs
        dsimp only at hgi
        rcases getD_set_rev _ _ _ _ _ _ hgi (by simp) with ⟨hieq, hlt, hv⟩ | ⟨hne, hv⟩
        · cases Option.some.inj hv
          rw [show ({ Inode.init "file" with hard_links := 1 } : Inode).direct =
            List.replicate 10 none from rfl, getD_replicate_none] at hgk
          cases hgk
        · exact ⟨ino', hv, hgk⟩
      refine ⟨fun i k b hs => hM i k b (hconv i k b hs),
        fun i k i' k' b hs hs' => hX i k i' k' b (hconv i k b hs) (hconv i' k' b hs'), ?_⟩
      intro i ino' hgi
      dsimp only at hgi
      rcases getD_set_rev _ _ _ _ _ _ hgi (by simp) with ⟨hieq, hlt, hv⟩ | ⟨hne, hv⟩
      · cases Option.some.inj hv
        rfl
      · exact hInd i ino' hv
  | openF name =>
    rcases openFile_cases fs name with h | ⟨inum, h⟩ <;> simp only [applyOp, h] <;>
      exact ⟨hM, hX, hInd⟩
  | close fd =>
    rcases close_cases fs fd with h | h <;> simp only [applyOp, h] <;> exact ⟨hM, hX, hInd⟩
  | seek fd off =>
    rcases seek_cases fs fd off with h | ⟨of, hof0, h⟩ <;> simp only [applyOp, h] <;>
      exact ⟨hM, hX, hInd⟩
  | readF fd n =>
    rcases read_cases fs fd n with h | ⟨of, ino, hof0, hino0, hsz, h⟩ <;>
      simp only [applyOp, h] <;> exact ⟨hM, hX, hInd⟩
  | link a b =>
    rcases link_cases fs a b with h | ⟨inum, ino, hino0, h⟩
    · simp only [applyOp, h]
      exact ⟨hM, hX, hInd⟩
    · simp only [applyOp, h, blockInv_saveMetadata]
      have hconv : ∀ i k b2, SlotAt { fs with
          inodes := fs.inodes.set inum (some { ino with hard_links := ino.hard_links + 1 }),
          root_directory := dictSet fs.root_directory b inum } i k b2 → SlotAt fs i k b2 := by
        intro i k b2 hs
        obtain ⟨ino', hgi, hgk⟩ := hs
        dsimp only at hgi
        rcases getD_set_rev _ _ _ _ _ _ hgi (by simp) with ⟨hieq, hlt, hv⟩ | ⟨hne, hv⟩
        · cases Option.some.inj hv
          exact hieq ▸ ⟨ino, hino0, hgk⟩
        · exact ⟨ino', hv, hgk⟩
      refine ⟨fun i k b2 hs => hM i k b2 (hconv i k b2 hs),
        fun i k i' k' b2 hs hs' => hX i k i' k' b2 (hconv i k b2 hs) (hconv i' k' b2 hs'), ?_⟩
      intro i ino' hgi
      dsimp only at hgi
      rcases getD_set_rev _ _ _ _ _ _ hgi (by simp) with ⟨hieq, hlt, hv⟩ | ⟨hne, hv⟩
      · cases Option.some.inj hv
        exact hInd inum ino hino0
      · exact hInd i ino' hv
  | unlink name =>
    rcases unlink_cases fs name with h | ⟨inum, ino, hname, hino0, h | h⟩
    · simp only [applyOp, h]
      exact ⟨hM, hX, hInd⟩
    · simp only [applyOp, h, blockInv_saveMetadata]
      have hconv : ∀ i k b2, SlotAt { fs with
          inodes := fs.inodes.set inum (some { ino with hard_links := ino.hard_links - 1 }),
          root_directory := dictErase fs.root_directory name } i k b2 → SlotAt fs i k b2 := by
        intro i k b2 hs
        obtain ⟨ino', hgi, hgk⟩ := hs
        dsimp only at hgi
        rcases getD_set_rev _ _ _ _ _ _ hgi (by simp) with ⟨hieq, hlt, hv⟩ | ⟨hne, hv⟩
        · cases Option.some.inj hv
          exact hieq ▸ ⟨ino, hino0, hgk⟩
        · exact ⟨ino', hv, hgk⟩
      refine ⟨fun i k b2 hs => hM i k b2 (hconv i k b2 hs),
        fun i k i' k' b2 hs hs' => hX i k i' k' b2 (hconv i k b2 hs) (hconv i' k' b2 hs'), ?_⟩
      intro i ino' hgi
      dsimp only at hgi
      rcases getD_set_rev _ _ _ _ _ _ hgi (by simp) with ⟨hieq, hlt, hv⟩ | ⟨hne, hv⟩
      · cases Option.some.inj hv
        exact hInd inum ino hino0
      · exact hInd i ino' hv
    · simp only [applyOp, h, blockInv_saveMetadata]
      have hlen : inum < fs.inodes.length := getD_lt_length _ _ _ _ hino0 (by simp)
      have hino1 : ({ fs with
          inodes := fs.inodes.set inum (some { ino with hard_links := ino.hard_links - 1 }),
          root_directory := dictErase fs.root_directory name } : FS).inodes.getD inum none =
          some { ino with hard_links := ino.hard_links - 1 } := by
        dsimp only
        exact getD_set_eq _ _ _ _ (by simpa using hlen)
      have hind1 : ({ ino with hard_links := ino.hard_links - 1 } : Inode).indirect = none :=
        hInd inum ino hino0
      rw [deleteInode_shape _ inum _ hino1 hind1]
      have hFin : (List.foldl freeDirectStep { fs with
          inodes := fs.inodes.set inum (some { ino with hard_links := ino.hard_links - 1 }),
          root_directory := dictErase fs.root_directory name }
          ({ ino with hard_links := ino.hard_links - 1 } : Inode).direct).inodes =
          fs.inodes.set inum (some { ino with hard_links := ino.hard_links - 1 }) :=
        freeDirectFold_proj FS.inodes (fun _ _ => rfl) _ _
      have hconv : ∀ i k b2, SlotAt { (List.foldl freeDirectStep { fs with
            inodes := fs.inodes.set inum (some { ino with hard_links := ino.hard_links - 1 }),
            root_directory := dictErase fs.root_directory name }
            ({ ino with hard_links := ino.hard_links - 1 } : Inode).direct) with
          inodes := (List.foldl freeDirectStep { fs with
            inodes := fs.inodes.set inum (some { ino with hard_links := ino.hard_links - 1 }),
            root_directory := dictErase fs.root_directory name }
            ({ ino with hard_links := ino.hard_links - 1 } : Inode).direct).inodes.set inum
            none } i k b2 →
          i ≠ inum ∧ SlotAt fs i k b2 := by
        intro i k b2 hs
        obtain ⟨ino', hgi, hgk⟩ := hs
        dsimp only at hgi
        rw [hFin] at hgi
        rcases getD_set_rev _ _ _ _ _ _ hgi (by simp) with ⟨hieq, hlt, hv⟩ | ⟨hne, hv⟩
        · cases hv
        · rcases getD_set_rev _ _ _ _ _ _ hv (by simp) with ⟨hieq2, hlt2, hv2⟩ | ⟨hne2, hv2⟩
          · exact absurd hieq2 hne
          · exact ⟨hne, ino', hv2, hgk⟩
      have hOther : ∀ b2, (∃ i k, i ≠ inum ∧ SlotAt fs i k b2) →
          (List.foldl freeDirectStep { fs with
            inodes := fs.inodes.set inum (some { ino with hard_links := ino.hard_links - 1 }),
            root_directory := dictErase fs.root_directory name }
            ({ ino with hard_links := ino.hard_links - 1 } : Inode).direct).block_bitmap.getD
            b2 false = true := by
        apply freeDirectFold_other
        · intro b2 hb2
          obtain ⟨i, k, hne, hs⟩ := hb2
          exact hM i k b2 hs
        · intro b2 hb2 hob
          obtain ⟨i, k, hne, hs⟩ := hob
          obtain ⟨k2, hk2⟩ := mem_some_getD _ _ hb2
          have := hX i k inum k2 b2 hs ⟨ino, hino0, hk2⟩
          exact hne this.1
      refine ⟨?_, ?_, ?_⟩
      · intro i k b2 hs
        obtain ⟨hne, hs2⟩ := hconv i k b2 hs
        exact hOther b2 ⟨i, k, hne, hs2⟩
      · intro i k i' k' b2 hs hs'
        obtain ⟨hne, hs2⟩ := hconv i k b2 hs
        obtain ⟨hne', hs2'⟩ := hconv i' k' b2 hs'
        exact hX i k i' k' b2 hs2 hs2'
      · intro i ino' hgi
        dsimp only at hgi
        rw [hFin] at hgi
        rcases getD_set_rev _ _ _ _ _ _ hgi (by simp) with ⟨hieq, hlt, hv⟩ | ⟨hne, hv⟩
        · cases hv
        · rcases getD_set_rev _ _ _ _ _ _ hv (by simp) with ⟨hieq2, hlt2, hv2⟩ | ⟨hne2, hv2⟩
          · cases Option.some.inj hv2
            exact hInd inum ino hino0
          · exact hInd i ino' hv2
  | write fd data =>
    rcases write_cases fs fd data with h | ⟨of, ino, hof0, hino0, h⟩
    · simp only [applyOp, h]
      exact ⟨hM, hX, hInd⟩
    · simp only [applyOp, h, blockInv_saveMetadata]
      have hDI : DirectInv fs.block_bitmap ino.direct
          (fun b2 => ∃ i k, i ≠ of.inode ∧ SlotAt fs i k b2) := by
        refine ⟨?_, ?_, ?_, ?_⟩
        · intro k b2 hk
          exact hM of.inode k b2 ⟨ino, hino0, hk⟩
        · intro b2 hb2
          obtain ⟨i, k, hne, hs⟩ := hb2
          exact hM i k b2 hs
        · intro k k2 b2 hk hk2
          exact (hX of.inode k of.inode k2 b2 ⟨ino, hino0, hk⟩ ⟨ino, hino0, hk2⟩).2
        · intro k b2 hk hob
          obtain ⟨i, k2, hne, hs⟩ := hob
          have := hX i k2 of.inode k b2 hs ⟨ino, hino0, hk⟩
          exact hne this.1
      have hres := writeLoopAux_directInv fs.block_size of.offset data
        (fun b2 => ∃ i k, i ≠ of.inode ∧ SlotAt fs i k b2) (data.length - 0)
        fs.device fs.block_bitmap ino.direct 0 hDI
      obtain ⟨hr1, hr2, hr3, hr4⟩ := hres
      refine ⟨?_, ?_, ?_⟩
      · intro i k b2 hs
        obtain ⟨ino', hgi, hgk⟩ := hs
        dsimp only at hgi
        rcases getD_set_rev _ _ _ _ _ _ hgi (by simp) with ⟨hieq, hlt, hv⟩ | ⟨hne, hv⟩
        · cases Option.some.inj hv
          dsimp only
          simp only [VFS.writeLoop] at hgk ⊢
          exact hr1 k b2 hgk
        · dsimp only
          simp only [VFS.writeLoop]
          exact hr2 b2 ⟨i, k, hne, ino', hv, hgk⟩
      · intro i k i' k' b2 hs hs'
        obtain ⟨ino1, hgi1, hgk1⟩ := hs
        obtain ⟨ino2, hgi2, hgk2⟩ := hs'
        dsimp only at hgi1 hgi2
        rcases getD_set_rev _ _ _ _ _ _ hgi1 (by simp) with ⟨hieq1, hlt1, hv1⟩ | ⟨hne1, hv1⟩ <;>
          rcases getD_set_rev _ _ _ _ _ _ hgi2 (by simp) with ⟨hieq2, hlt2, hv2⟩ | ⟨hne2, hv2⟩
        · cases Option.some.inj hv1
          cases Option.some.inj hv2
          simp only [VFS.writeLoop] at hgk1 hgk2
          exact ⟨hieq1.trans hieq2.symm, hr3 k k' b2 hgk1 hgk2⟩
        · cases Option.some.inj hv1
          simp only [VFS.writeLoop] at hgk1
          exact absurd ⟨i', k', hieq1 ▸ hne2, ino2, hv2, hgk2⟩ (hr4 k b2 hgk1)
        · cases Option.some.inj hv2
          simp only [VFS.writeLoop] at hgk2
          exact absurd ⟨i, k, hieq2 ▸ hne1, ino1, hv1, hgk1⟩ (hr4 k' b2 hgk2)
        · exact hX i k i' k' b2 ⟨ino1, hv1, hgk1⟩ ⟨ino2, hv2, hgk2⟩
      · intro i ino' hgi
        dsimp only at hgi
        rcases getD_set_rev _ _ _ _ _ _ hgi (by simp) with ⟨hieq, hlt, hv⟩ | ⟨hne, hv⟩
        · cases Option.some.inj hv
          exact hInd of.inode ino hino0
        · exact hInd i ino' hv
  | truncate name s =>
    rcases truncate_cases fs name s with h | ⟨inum, ino, l, hname, hino0, h⟩
    · simp only [applyOp, h]
      exact ⟨hM, hX, hInd⟩
    · simp only [applyOp, h, blockInv_saveMetadata]
      have hDI : DirectInv fs.block_bitmap ino.direct
          (fun b2 => ∃ i k, i ≠ inum ∧ SlotAt fs i k b2) := by
        refine ⟨?_, ?_, ?_, ?_⟩
        · intro k b2 hk
          exact hM inum k b2 ⟨ino, hino0, hk⟩
        · intro b2 hb2
          obtain ⟨i, k, hne, hs⟩ := hb2
          exact hM i k b2 hs
        · intro k k2 b2 hk hk2
          exact (hX inum k inum k2 b2 ⟨ino, hino0, hk⟩ ⟨ino, hino0, hk2⟩).2
        · intro k b2 hk hob
          obtain ⟨i, k2, hne, hs⟩ := hob
          have := hX i k2 inum k b2 hs ⟨ino, hino0, hk⟩
          exact hne this.1
      have hres := truncFold_directInv
        (fun b2 => ∃ i k, i ≠ inum ∧ SlotAt fs i k b2) l fs ino.direct hDI
      obtain ⟨hr1, hr2, hr3, hr4⟩ := hres
      have hFin : (List.foldl truncStep (fs, ino.direct) l).1.inodes = fs.inodes :=
        truncFold_proj FS.inodes (fun _ _ => rfl) _ _ _
      refine ⟨?_, ?_, ?_⟩
      · intro i k b2 hs
        obtain ⟨ino', hgi, hgk⟩ := hs
        dsimp only at hgi
        rw [hFin] at hgi
        rcases getD_set_rev _ _ _ _ _ _ hgi (by simp) with ⟨hieq, hlt, hv⟩ | ⟨hne, hv⟩
        · cases Option.some.inj hv
          exact hr1 k b2 hgk
        · exact hr2 b2 ⟨i, k, hne, ino', hv, hgk⟩
      · intro i k i' k' b2 hs hs'
        obtain ⟨ino1, hgi1, hgk1⟩ := hs
        obtain ⟨ino2, hgi2, hgk2⟩ := hs'
        dsimp only at hgi1 hgi2
        rw [hFin] at hgi1 hgi2
        rcases getD_set_rev _ _ _ _ _ _ hgi1 (by simp) with ⟨hieq1, hlt1, hv1⟩ | ⟨hne1, hv1⟩ <;>
          rcases getD_set_rev _ _ _ _ _ _ hgi2 (by simp) with ⟨hieq2, hlt2, hv2⟩ | ⟨hne2, hv2⟩
        · cases Option.some.inj hv1
          cases Option.some.inj hv2
          exact ⟨hieq1.trans hieq2.symm, hr3 k k' b2 hgk1 hgk2⟩
        · cases Option.some.inj hv1
          exact absurd ⟨i', k', hieq1 ▸ hne2, ino2, hv2, hgk2⟩ (hr4 k b2 hgk1)
        · cases Option.some.inj hv2
          exact absurd ⟨i, k, hieq2 ▸ hne1, ino1, hv1, hgk1⟩ (hr4 k' b2 hgk2)
        · exact hX i k i' k' b2 ⟨ino1, hv1, hgk1⟩ ⟨ino2, hv2, hgk2⟩
      · intro i ino' hgi
        dsimp only at hgi
        rw [hFin] at hgi
        rcases getD_set_rev _ _ _ _ _ _ hgi (by simp) with ⟨hieq, hlt, hv⟩ | ⟨hne, hv⟩
        · cases Option.some.inj hv
          exact hInd inum ino hino0
        · exact hInd i ino' hv

/-- C10: in every state reachable from mkfs by any sequence of VFS
operations, every block index stored in any inode's direct list is marked
allocated in the free-block bitmap, no block index appears in two
different direct slots across all inodes, and no inode carries an indirect
block; the operations that free blocks (truncate shrink, inode deletion)
clear the owning slot in the same step, which is what the per-operation
preservation argument verifies. -/
theorem C10_block_ownership (bs total c0 n : Nat) (ops : List Op) :
    BlockInv (runOps (mkfsState bs total c0 n) ops) := by
  have hinit : BlockInv (mkfsState bs total c0 n) := by
    refine ⟨?_, ?_, ?_⟩
    · intro i k b hs
      obtain ⟨ino, hgi, hgk⟩ := hs
      rw [mkfsState_inodes, getD_replicate_none] at hgi
      cases hgi
    · intro i k i' k' b hs hs'
      obtain ⟨ino, hgi, hgk⟩ := hs
      rw [mkfsState_inodes, getD_replicate_none] at hgi
      cases hgi
    · intro i ino hgi
      rw [mkfsState_inodes, getD_replicate_none] at hgi
      cases hgi
  suffices H : ∀ (ops : List Op) (fs : FS), BlockInv fs → BlockInv (runOps fs ops) from
    H ops _ hinit
  intro ops
  induction ops with
  | nil => intro fs h; exact h
  | cons op t ih =>
    intro fs h
    exact ih (applyOp fs op) (blockInv_applyOp fs op h)

end MyFS

namespace MyFS

/-! ## List and arithmetic helpers for the content proofs -/

theorem getD_append_left {α : Type} (l₁ l₂ : List α) (j : Nat) (d : α) (h : j < l₁.length) :
    (l₁ ++ l₂).getD j d = l₁.getD j d := by
  induction l₁ generalizing j with
  | nil => simp at h
  | cons a t ih =>
    cases j with
    | zero => rfl
    | succ m => simpa using ih m (by simpa using h)

theorem getD_append_right {α : Type} (l₁ l₂ : List α) (t : Nat) (d : α) :
    (l₁ ++ l₂).getD (l₁.length + t) d = l₂.getD t d := by
  induction l₁ with
  | nil => simp
  | cons a tl ih => simpa [Nat.succ_add] using ih

theorem getD_take {α : Type} (l : List α) (n j : Nat) (d : α) (h : j < n) :
    (l.take n).getD j d = l.getD j d := by
  induction l generalizing n j with
  | nil => simp
  | cons a t ih =>
    cases n with
    | zero => omega
    | succ m =>
      cases j with
      | zero => rfl
      | succ q => simpa using ih m q (by omega)

theorem getD_drop {α : Type} (l : List α) (a t : Nat) (d : α) :
    (l.drop a).getD t d = l.getD (a + t) d := by
  induction l generalizing a with
  | nil => simp
  | cons x xs ih =>
    cases a with
    | zero => simp
    | succ m => simpa [Nat.succ_add] using ih m

theorem countFree_firstFalse (l : List Bool) (h : 0 < countFree l) :
    ∃ nb, firstFalse l = some nb := by
  induction l with
  | nil => simp [countFree] at h
  | cons b t ih =>
    cases b with
    | true =>
      simp [countFree] at h
      obtain ⟨nb, hnb⟩ := ih (by omega)
      exact ⟨nb + 1, by simp [firstFalse, hnb]⟩
    | false =>
      exact ⟨0, by simp [firstFalse]⟩

theorem countFree_set_true (l : List Bool) (nb : Nat) (hlt : nb < l.length)
    (hf : l.getD nb false = false) : countFree (l.set nb true) + 1 = countFree l := by
  induction l generalizing nb with
  | nil => simp at hlt
  | cons b t ih =>
    cases nb with
    | zero =>
      have : b = false := by simpa using hf
      subst this
      simp [countFree]
      omega
    | succ m =>
      have := ih m (by simpa using hlt) (by simpa using hf)
      simp only [List.set, countFree]
      omega

theorem normBlock_of_length (bs : Nat) (l : List Nat) (h : l.length = bs) :
    normBlock bs l = l := by
  unfold normBlock
  rw [← h, List.take_length, Nat.sub_self, List.replicate_zero, List.append_nil]

theorem ceil_pred_div (len bs : Nat) (hlen : 0 < len) (hbs : 0 < bs) :
    (len - 1) / bs + 1 = (len + bs - 1) / bs := by
  have : len + bs - 1 = (len - 1) + bs := by omega
  rw [this, Nat.add_div_right _ hbs]

theorem mul_add_div_lt (bs bo x : Nat) (hbs : 0 < bs) (hx : x < bs) :
    (bs * bo + x) / bs = bo ∧ (bs * bo + x) % bs = x := by
  constructor
  · rw [Nat.mul_add_div hbs, Nat.div_eq_of_lt hx]
    omega
  · rw [Nat.mul_add_mod, Nat.mod_eq_of_lt hx]

theorem map_range'_getD (f : Nat → Nat) :
    ∀ (l : List Nat) (s : Nat), (∀ t, t < l.length → f (s + t) = l.getD t 0) →
      (List.range' s l.length).map f = l := by
  intro l
  induction l with
  | nil => intro s h; rfl
  | cons a t ih =>
    intro s h
    rw [List.length_cons, List.range'_succ, List.map_cons]
    have h0 := h 0 (by simp)
    simp only [Nat.add_zero, List.getD_cons_zero] at h0
    rw [h0, ih (s + 1) (fun u hu => by
      have := h (u + 1) (by simpa using Nat.succ_lt_succ hu)
      simpa [Nat.add_assoc, Nat.add_comm 1 u, Nat.add_left_comm] using this)]

theorem map_range'_zero (f : Nat → Nat) :
    ∀ (n s : Nat), (∀ t, t < n → f (s + t) = 0) → (List.range' s n).map f = List.replicate n 0 := by
  intro n
  induction n with
  | zero => intro s h; rfl
  | succ m ih =>
    intro s h
    rw [List.range'_succ, List.map_cons, List.replicate_succ]
    have h0 := h 0 (by omega)
    rw [Nat.add_zero] at h0
    rw [h0, ih (s + 1) (fun u hu => by
      have := h (u + 1) (by omega)
      simpa [Nat.add_assoc, Nat.add_comm 1 u, Nat.add_left_comm] using this)]

theorem drop_take_as_map (l : List Nat) (a n : Nat) (h : a + n ≤ l.length) :
    (l.drop a).take n = (List.range' a n).map (fun q => l.getD q 0) := by
  induction n generalizing a with
  | zero => simp
  | succ m ih =>
    have ha : a < l.length := by omega
    have h2 := ih (a + 1) (by omega)
    rw [List.range'_succ, List.map_cons, ← h2]
    rw [List.drop_eq_getElem_cons ha, List.take_succ_cons]
    simp [List.getD, List.getElem?_eq_getElem ha]

end MyFS

namespace MyFS

/-! ## Content postconditions of the write and read loops -/

theorem getD_append_sub {α : Type} (l₁ l₂ : List α) (q : Nat) (d : α) (h : l₁.length ≤ q) :
    (l₁ ++ l₂).getD q d = l₂.getD (q - l₁.length) d := by
  have hq : q = l₁.length + (q - l₁.length) := by omega
  calc (l₁ ++ l₂).getD q d = (l₁ ++ l₂).getD (l₁.length + (q - l₁.length)) d := by rw [← hq]
    _ = l₂.getD (q - l₁.length) d := getD_append_right _ _ _ _

theorem spliceBlock_length (bs : Nat) (dev : List (List Nat)) (b byo : Nat) (seg : List Nat) :
    (spliceBlock bs dev b byo seg).length = dev.length := by
  unfold spliceBlock
  split <;> simp

theorem spliceBlock_getD_ne (bs : Nat) (dev : List (List Nat)) (b byo : Nat) (seg : List Nat)
    (j : Nat) (h : j ≠ b) : (spliceBlock bs dev b byo seg).getD j [] = dev.getD j [] := by
  unfold spliceBlock
  split
  · exact getD_set_ne _ _ _ _ _ (fun hh => h hh.symm)
  · rfl

theorem spliceBlock_getD_self (bs : Nat) (dev : List (List Nat)) (b byo : Nat) (seg : List Nat)
    (hb : b < dev.length) :
    (spliceBlock bs dev b byo seg).getD b [] =
      normBlock bs ((dev.getD b []).take byo ++
        List.replicate (byo - (dev.getD b []).length) 0 ++ seg ++
        (dev.getD b []).drop (byo + seg.length)) := by
  unfold spliceBlock
  rw [if_pos hb]
  exact getD_set_eq _ _ _ _ hb

theorem spliceBlock_getD_eq (bs : Nat) (dev : List (List Nat)) (b byo : Nat) (seg : List Nat)
    (hb : b < dev.length) (hlen : (dev.getD b []).length = bs)
    (hfit : byo + seg.length ≤ bs) (q : Nat) :
    ((spliceBlock bs dev b byo seg).getD b []).getD q 0 =
      if q < byo then (dev.getD b []).getD q 0
      else if q < byo + seg.length then seg.getD (q - byo) 0
      else (dev.getD b []).getD q 0 := by
  rw [spliceBlock_getD_self bs dev b byo seg hb]
  have hrep : byo - (dev.getD b []).length = 0 := by omega
  rw [hrep, List.replicate_zero, List.append_nil]
  have htk : ((dev.getD b []).take byo).length = byo := by
    rw [List.length_take]
    omega
  have hnorm : (((dev.getD b []).take byo ++ seg ++
      (dev.getD b []).drop (byo + seg.length))).length = bs := by
    rw [List.length_append, List.length_append, htk, List.length_drop, hlen]
    omega
  rw [normBlock_of_length _ _ hnorm]
  by_cases h1 : q < byo
  · rw [if_pos h1]
    rw [getD_append_left _ _ _ _ (by rw [List.length_append, htk]; omega)]
    rw [getD_append_left _ _ _ _ (by rw [htk]; exact h1)]
    exact getD_take _ _ _ _ h1
  · rw [if_neg h1]
    by_cases h2 : q < byo + seg.length
    · rw [if_pos h2]
      rw [getD_append_left _ _ _ _ (by rw [List.length_append, htk]; omega)]
      rw [getD_append_sub _ _ _ _ (by rw [htk]; omega), htk]
    · rw [if_neg h2]
      rw [getD_append_sub _ _ _ _ (by rw [List.length_append, htk]; omega)]
      rw [getD_drop, List.length_append, htk]
      congr 1
      omega

theorem writeStep_next_div (bs offset w : Nat) (data : List Nat) (hbs : 0 < bs)
    (hlt : w + min (data.length - w) (bs - (offset + w) % bs) < data.length) :
    (offset + (w + min (data.length - w) (bs - (offset + w) % bs))) / bs
      = (offset + w) / bs + 1 := by
  have hdm := Nat.div_add_mod (offset + w) bs
  have hmod : (offset + w) % bs < bs := Nat.mod_lt _ hbs
  have hmul : bs * ((offset + w) / bs + 1) = bs * ((offset + w) / bs) + bs := by ring
  have he : offset + (w + min (data.length - w) (bs - (offset + w) % bs))
      = bs * ((offset + w) / bs + 1) + 0 := by omega
  rw [he, (mul_add_div_lt bs ((offset + w) / bs + 1) 0 hbs hbs).1]

theorem wlgood_refl (bs offset : Nat) (data : List Nat) (dev : List (List Nat))
    (bitmap : List Bool) (direct : List (Option Nat)) (w : Nat) (hweq : w = data.length)
    (hwf : ∀ j, j < dev.length → (dev.getD j []).length = bs) :
    WLGood bs offset data dev bitmap direct w (w, dev, bitmap, direct) := by
  refine ⟨hweq, ?_, fun b _ => rfl, fun j b h => h, fun j _ => rfl, fun b h => h, rfl, rfl, hwf,
    fun j b h => Or.inl h, ?_⟩
  · intro p hp hp2
    omega
  · intro h
    omega



theorem wlgood_step (bs offset : Nat) (data : List Nat) (hbs : 0 < bs)
    (dev dev₁ : List (List Nat)) (bitmap : List Bool) (direct : List (Option Nat))
    (w bo byo btw nb : Nat) (seg : List Nat)
    (r : Nat × List (List Nat) × List Bool × List (Option Nat))
    (hbo' : bo = (offset + w) / bs) (hbyo : byo = (offset + w) % bs)
    (hw : w < data.length)
    (hbtw : btw = min (data.length - w) (bs - byo))
    (hseg : seg = (data.drop w).take btw)
    (hdev1 : dev₁ = spliceBlock bs dev nb byo seg)
    (hblen : bitmap.length = dev.length)
    (hwf : ∀ j, j < dev.length → (dev.getD j []).length = bs)
    (hboLt : bo < direct.length)
    (hslot : direct.getD bo none = none)
    (hnbLt : nb < bitmap.length) (hnbF : bitmap.getD nb false = false)
    (hG : WLGood bs offset data dev₁ (bitmap.set nb true)
      (direct.set bo (some nb)) (w + btw) r) :
    WLGood bs offset data dev bitmap direct w r := by
  obtain ⟨G1, G2, G3, G4, G5, G6, G7, G8, G9, G10, G11⟩ := hG
  have hdm : bs * bo + byo = offset + w := by
    rw [hbo', hbyo]
    exact Nat.div_add_mod _ _
  have hmod : byo < bs := by
    rw [hbyo]
    exact Nat.mod_lt _ hbs
  have hbtwpos : 0 < btw := by omega
  have hnbDev : nb < dev.length := by omega
  have hseglen : seg.length = btw := by
    rw [hseg, List.length_take, List.length_drop]
    omega
  have hsegfit : byo + seg.length ≤ bs := by omega
  have hdev1len : dev₁.length = dev.length := by
    rw [hdev1]
    exact spliceBlock_length _ _ _ _ _
  have hb1map : (bitmap.set nb true).getD nb false = true := getD_set_eq _ _ _ _ hnbLt
  have hdir1bo : (direct.set bo (some nb)).getD bo none = some nb := getD_set_eq _ _ _ _ hboLt
  have hnbKeep : r.2.1.getD nb [] = dev₁.getD nb [] := G3 nb hb1map
  have hsplice := spliceBlock_getD_eq bs dev nb byo seg hnbDev (hwf nb hnbDev) hsegfit
  have hkey : ∀ p, w ≤ p → p < w + btw →
      (offset + p) / bs = bo ∧ (offset + p) % bs = byo + (p - w) := by
    intro p hp1 hp2
    have he : offset + p = bs * bo + (byo + (p - w)) := by omega
    rw [he]
    exact mul_add_div_lt bs bo (byo + (p - w)) hbs (by omega)
  refine ⟨G1, ?_, ?_, ?_, ?_, ?_, ?_, ?_, ?_, ?_, ?_⟩
  · -- written range reads back
    intro p hp hplt
    by_cases hcase : p < w + btw
    · obtain ⟨hdiv, hmodp⟩ := hkey p hp hcase
      refine ⟨nb, ?_, hnbDev, ?_⟩
      · rw [hdiv]
        exact G4 bo nb hdir1bo
      · rw [hmodp, hnbKeep, hdev1, hsplice (byo + (p - w))]
        rw [if_neg (by omega), if_pos (by omega)]
        have hsub : byo + (p - w) - byo = p - w := by omega
        rw [hsub, hseg, getD_take _ _ _ _ (by omega), getD_drop]
        congr 1
        omega
    · obtain ⟨b, hb1, hb2, hb3⟩ := G2 p (by omega) hplt
      rw [hdev1len] at hb2
      exact ⟨b, hb1, hb2, hb3⟩
  · -- marked blocks keep contents
    intro b hbT
    have hbne : b ≠ nb := by
      intro h
      rw [h, hnbF] at hbT
      exact Bool.noConfusion hbT
    have hbT1 : (bitmap.set nb true).getD b false = true := by
      rw [getD_set_ne _ _ _ _ _ (fun hh => hbne hh.symm)]
      exact hbT
    rw [G3 b hbT1, hdev1, spliceBlock_getD_ne _ _ _ _ _ _ hbne]
  · -- filled slots persist
    intro j b hjb
    have hjne : j ≠ bo := by
      intro h
      rw [h, hslot] at hjb
      exact Option.noConfusion hjb
    refine G4 j b ?_
    rw [getD_set_ne _ _ _ _ _ (fun hh => hjne hh.symm)]
    exact hjb
  · -- slots below the current block untouched
    intro j hj
    rw [← hbo'] at hj
    have hmono : bo ≤ (offset + (w + btw)) / bs := by
      rw [hbo']
      exact Nat.div_le_div_right (by omega)
    rw [G5 j (by omega), getD_set_ne _ _ _ _ _ (by omega)]
  · -- bitmap only grows
    intro b hbT
    apply G6
    by_cases hb : b = nb
    · rw [hb]
      exact hb1map
    · rw [getD_set_ne _ _ _ _ _ (fun hh => hb hh.symm)]
      exact hbT
  · -- bitmap length
    rw [G7, List.length_set]
  · -- device length
    rw [G8, hdev1len]
  · -- block well-formedness
    intro j hj
    exact G9 j (by omega)
  · -- new slots held free blocks
    intro j b hjb
    rcases G10 j b hjb with hd | hf
    · by_cases hj : j = bo
      · subst hj
        rw [hdir1bo] at hd
        right
        rw [show b = nb from (Option.some.inj hd).symm]
        exact hnbF
      · left
        rw [getD_set_ne _ _ _ _ _ (fun hh => hj hh.symm)] at hd
        exact hd
    · right
      by_cases hb : b = nb
      · rw [hb, hb1map] at hf
        exact Bool.noConfusion hf
      · rw [getD_set_ne _ _ _ _ _ (fun hh => hb hh.symm)] at hf
        exact hf
  · -- first touched block was free and keeps its prefix
    intro _
    refine ⟨nb, ?_, hnbF, hnbDev, ?_⟩
    · rw [← hbo']
      exact G4 bo nb hdir1bo
    · intro q hq
      rw [← hbyo] at hq
      rw [hnbKeep, hdev1, hsplice q, if_pos hq]



theorem writeLoopAux_content (bs offset : Nat) (data : List Nat) (hbs : 0 < bs) :
    ∀ (fuel : Nat) (dev : List (List Nat)) (bitmap : List Bool) (direct : List (Option Nat))
      (w : Nat), w ≤ data.length → data.length - w ≤ fuel →
      bitmap.length = dev.length →
      (∀ j, j < dev.length → (dev.getD j []).length = bs) →
      offset + data.length ≤ direct.length * bs →
      (w < data.length → ∀ k, (offset + w) / bs ≤ k → direct.getD k none = none) →
      (w < data.length →
        (offset + data.length - 1) / bs + 1 - (offset + w) / bs ≤ countFree bitmap) →
      WLGood bs offset data dev bitmap direct w
        (VFS.writeLoopAux bs offset data fuel dev bitmap direct w) := by
  intro fuel
  induction fuel with
  | zero =>
    intro dev bitmap direct w hw hfuel hblen hwf hcap hempty hfree
    rw [VFS.writeLoopAux]
    exact wlgood_refl bs offset data dev bitmap direct w (by omega) hwf
  | succ fuel ih =>
    intro dev bitmap direct w hw hfuel hblen hwf hcap hempty hfree
    rw [VFS.writeLoopAux]
    dsimp only
    by_cases h1 : w < data.length
    · rw [if_pos h1]
      have hdm := Nat.div_add_mod (offset + w) bs
      have hmod : (offset + w) % bs < bs := Nat.mod_lt _ hbs
      have h2 : (offset + w) / bs < direct.length := by
        rw [Nat.div_lt_iff_lt_mul hbs]
        calc offset + w < offset + data.length := by omega
          _ ≤ direct.length * bs := hcap
      rw [if_pos h2]
      have hslot : direct.getD ((offset + w) / bs) none = none :=
        hempty h1 _ (Nat.le_refl _)
      rw [hslot]
      dsimp only
      have hTbo : (offset + w) / bs ≤ (offset + data.length - 1) / bs :=
        Nat.div_le_div_right (by omega)
      have hfreeN := hfree h1
      have hcf : 0 < countFree bitmap := by omega
      obtain ⟨nb, hnb⟩ := countFree_firstFalse bitmap hcf
      rw [hnb]
      dsimp only
      obtain ⟨hnbLt, hnbF⟩ := firstFalse_spec bitmap nb hnb
      have h3 : ¬ (min (data.length - w) (bs - (offset + w) % bs) = 0) := by omega
      rw [if_neg h3]
      have hcs := countFree_set_true bitmap nb hnbLt hnbF
      refine wlgood_step bs offset data hbs dev _ bitmap direct w _ _ _ nb _ _
        rfl rfl h1 rfl rfl rfl hblen hwf h2 hslot hnbLt hnbF ?_
      refine ih _ _ _ _ (by omega) (by omega) ?_ ?_ ?_ ?_ ?_
      · rw [List.length_set, spliceBlock_length]
        exact hblen
      · intro j hj
        rw [spliceBlock_length] at hj
        by_cases hjnb : j = nb
        · subst hjnb
          rw [spliceBlock_getD_self bs dev j _ _ hj]
          exact normBlock_length _ _
        · rw [spliceBlock_getD_ne _ _ _ _ _ _ hjnb]
          exact hwf j hj
      · rw [List.length_set]
        exact hcap
      · intro hlt k hk
        rw [writeStep_next_div bs offset w data hbs hlt] at hk
        rw [getD_set_ne _ _ _ _ _ (by omega)]
        exact hempty h1 k (by omega)
      · intro hlt
        rw [writeStep_next_div bs offset w data hbs hlt]
        omega
    · rw [if_neg h1]
      exact wlgood_refl bs offset data dev bitmap direct w (by omega) hwf



theorem range'_split (s m n : Nat) (h : m ≤ n) :
    List.range' s n = List.range' s m ++ List.range' (s + m) (n - m) := by
  induction m generalizing s n with
  | zero => simp
  | succ k ihk =>
    cases n with
    | zero => omega
    | succ n' =>
      have e1 : s + 1 + k = s + (k + 1) := by omega
      have e2 : n' - k = n' + 1 - (k + 1) := by omega
      rw [List.range'_succ, ihk (s + 1) n' (by omega), e1, e2, ← List.cons_append,
        ← List.range'_succ]

theorem map_range'_eq (f : Nat → Nat) (l : List Nat) (s n : Nat) (hn : l.length = n)
    (h : ∀ t, t < n → f (s + t) = l.getD t 0) : (List.range' s n).map f = l := by
  subst hn
  exact map_range'_getD f l s h

theorem readLoopAux_content (bs : Nat) (dev : List (List Nat)) (direct : List (Option Nat))
    (offset actual : Nat) (hbs : 0 < bs)
    (hcap : ∀ p, p < actual → (offset + p) / bs < direct.length)
    (hwf : ∀ p, p < actual → ∀ b, direct.getD ((offset + p) / bs) none = some b →
      (dev.getD b []).length = bs) :
    ∀ (fuel br : Nat) (acc : List Nat), br ≤ actual → actual - br ≤ fuel →
      VFS.readLoopAux bs dev direct offset actual fuel br acc =
        (acc ++ (List.range' (offset + br) (actual - br)).map (logByte bs dev direct),
          actual) := by
  intro fuel
  induction fuel with
  | zero =>
    intro br acc hbr hfuel
    have hbeq : br = actual := by omega
    subst hbeq
    rw [VFS.readLoopAux]
    simp
  | succ fuel ih =>
    intro br acc hbr hfuel
    rw [VFS.readLoopAux]
    dsimp only
    by_cases h1 : br < actual
    · rw [if_pos h1]
      have hdm := Nat.div_add_mod (offset + br) bs
      have hmod : (offset + br) % bs < bs := Nat.mod_lt _ hbs
      have h2 : (offset + br) / bs < direct.length := hcap br h1
      rw [if_pos h2]
      have h3 : ¬ (min (actual - br) (bs - (offset + br) % bs) = 0) := by omega
      rw [if_neg h3]
      have hkey : ∀ t, t < min (actual - br) (bs - (offset + br) % bs) →
          (offset + (br + t)) / bs = (offset + br) / bs ∧
          (offset + (br + t)) % bs = (offset + br) % bs + t := by
        intro t ht
        have he : offset + (br + t)
            = bs * ((offset + br) / bs) + ((offset + br) % bs + t) := by omega
        rw [he]
        exact mul_add_div_lt bs ((offset + br) / bs) ((offset + br) % bs + t) hbs (by omega)
      have hspl : List.range' (offset + br) (actual - br) =
          List.range' (offset + br) (min (actual - br) (bs - (offset + br) % bs)) ++
          List.range'
            (offset + (br + min (actual - br) (bs - (offset + br) % bs)))
            (actual - (br + min (actual - br) (bs - (offset + br) % bs))) := by
        rw [range'_split (offset + br) (min (actual - br) (bs - (offset + br) % bs))
          (actual - br) (by omega)]
        rw [show offset + br + min (actual - br) (bs - (offset + br) % bs)
              = offset + (br + min (actual - br) (bs - (offset + br) % bs)) from by omega,
            show actual - br - min (actual - br) (bs - (offset + br) % bs)
              = actual - (br + min (actual - br) (bs - (offset + br) % bs)) from by omega]
      cases hslot : direct.getD ((offset + br) / bs) none with
      | none =>
        dsimp only
        rw [ih (br + min (actual - br) (bs - (offset + br) % bs)) _ (by omega) (by omega)]
        rw [Prod.mk.injEq]
        refine ⟨?_, rfl⟩
        rw [List.append_assoc]
        congr 1
        rw [hspl, List.map_append]
        congr 1
        refine (map_range'_zero (logByte bs dev direct) _ _ ?_).symm
        intro t ht
        obtain ⟨hdiv, hmodp⟩ := hkey t ht
        unfold logByte
        rw [show offset + br + t = offset + (br + t) from by omega, hdiv, hslot]
      | some b =>
        dsimp only
        rw [ih (br + min (actual - br) (bs - (offset + br) % bs)) _ (by omega) (by omega)]
        rw [Prod.mk.injEq]
        refine ⟨?_, rfl⟩
        rw [List.append_assoc]
        congr 1
        rw [hspl, List.map_append]
        congr 1
        have hbl := hwf br h1 b hslot
        refine (map_range'_eq (logByte bs dev direct) _ _ _ ?_ ?_).symm
        · rw [List.length_take, List.length_drop, hbl]
          omega
        · intro t ht
          obtain ⟨hdiv, hmodp⟩ := hkey t ht
          unfold logByte
          rw [show offset + br + t = offset + (br + t) from by omega, hdiv, hslot]
          dsimp only
          rw [hmodp, getD_take _ _ _ _ ht, getD_drop]
    · rw [if_neg h1]
      have hbeq : br = actual := by omega
      subst hbeq
      simp

end MyFS

namespace MyFS

/-! ## `save_metadata` leaves data blocks beyond the chunk region untouched -/

theorem writeBlockN_device_getD (fs : FS) (i : Nat) (data : List Nat) (b : Nat) (h : b ≠ i) :
    (fs.writeBlockN i data).device.getD b [] = fs.device.getD b [] := by
  unfold FS.writeBlockN
  split
  · exact getD_set_ne _ _ _ _ _ (fun hh => h hh.symm)
  · rfl

theorem writeBlockN_device_length (fs : FS) (i : Nat) (data : List Nat) :
    (fs.writeBlockN i data).device.length = fs.device.length := by
  unfold FS.writeBlockN
  split <;> simp

theorem writeBlockN_bs (fs : FS) (i : Nat) (data : List Nat) :
    (fs.writeBlockN i data).block_size = fs.block_size :=
  writeBlockN_proj FS.block_size (fun _ _ => rfl) _ _ _

theorem numChunks_succ (bs len : Nat) (hbs : 0 < bs) (hlen : 0 < len) :
    numChunks bs len = numChunks bs (len - bs) + 1 := by
  unfold numChunks
  rw [show len + bs - 1 = (len - 1) + bs from by omega, Nat.add_div_right _ hbs]
  by_cases h : bs < len
  · rw [show len - bs + bs - 1 = len - 1 from by omega]
  · rw [Nat.div_eq_of_lt (by omega), Nat.div_eq_of_lt (by omega)]

theorem saveInodeChunksAux_device_getD :
    ∀ (fuel : Nat) (fs : FS) (bn : Nat) (rest : List Nat) (b : Nat),
      bn + numChunks fs.block_size rest.length ≤ b →
      (FS.saveInodeChunksAux fuel fs bn rest).device.getD b [] = fs.device.getD b [] := by
  intro fuel
  induction fuel with
  | zero => intro fs bn rest b h; rfl
  | succ n ih =>
    intro fs bn rest b h
    rw [FS.saveInodeChunksAux]
    split
    · rfl
    · rename_i hcond
      push_neg at hcond
      obtain ⟨hrest, hbs0⟩ := hcond
      have hbs : 0 < fs.block_size := Nat.pos_of_ne_zero hbs0
      have hlen : 0 < rest.length := List.length_pos.mpr hrest
      have hchunks : numChunks fs.block_size rest.length
          = numChunks fs.block_size (rest.drop fs.block_size).length + 1 := by
        rw [List.length_drop]
        exact numChunks_succ _ _ hbs hlen
      rw [ih _ _ _ b (by rw [writeBlockN_bs]; omega)]
      exact writeBlockN_device_getD fs bn _ b (by omega)

theorem saveInodeChunksAux_device_length :
    ∀ (fuel : Nat) (fs : FS) (bn : Nat) (rest : List Nat),
      (FS.saveInodeChunksAux fuel fs bn rest).device.length = fs.device.length := by
  intro fuel
  induction fuel with
  | zero => intro fs bn rest; rfl
  | succ n ih =>
    intro fs bn rest
    rw [FS.saveInodeChunksAux]
    split
    · rfl
    · rw [ih, writeBlockN_device_length]

theorem saveMetadata_device_length (X : FS) :
    X.saveMetadata.device.length = X.device.length := by
  unfold FS.saveMetadata FS.saveInodeChunks
  rw [saveInodeChunksAux_device_length, writeBlockN_device_length, writeBlockN_device_length]

theorem saveMetadata_device_getD (X : FS) (b : Nat)
    (h : 2 + numChunks X.block_size (strBytes (encodeInodes X.inodes)).length ≤ b) :
    X.saveMetadata.device.getD b [] = X.device.getD b [] := by
  unfold FS.saveMetadata FS.saveInodeChunks
  rw [saveInodeChunksAux_device_getD _ _ _ _ b
    (by rw [writeBlockN_bs, writeBlockN_bs]; exact h)]
  rw [writeBlockN_device_getD _ _ _ _ (by omega), writeBlockN_device_getD _ _ _ _ (by omega)]

end MyFS

namespace MyFS

/-! ## Exact result equations for write, seek and read on a found descriptor -/

theorem write_eq (fs : FS) (fd : Nat) (data : List Nat) (of : OpenFile) (ino : Inode)
    (hOF : dictGet fs.open_files fd = some of)
    (hINO : fs.inodes.getD of.inode none = some ino) :
    VFS.write fs fd data =
      (some (VFS.writeLoop fs.block_size fs.device fs.block_bitmap ino.direct
          of.offset data 0).1,
       FS.saveMetadata { fs with
         device := (VFS.writeLoop fs.block_size fs.device fs.block_bitmap ino.direct
           of.offset data 0).2.1,
         block_bitmap := (VFS.writeLoop fs.block_size fs.device fs.block_bitmap ino.direct
           of.offset data 0).2.2.1,
         inodes := fs.inodes.set of.inode (some { ino with
           direct := (VFS.writeLoop fs.block_size fs.device fs.block_bitmap ino.direct
             of.offset data 0).2.2.2,
           size := max ino.size (of.offset + (VFS.writeLoop fs.block_size fs.device
             fs.block_bitmap ino.direct of.offset data 0).1) }),
         open_files := dictSet fs.open_files fd { of with offset := of.offset +
           (VFS.writeLoop fs.block_size fs.device fs.block_bitmap ino.direct
             of.offset data 0).1 } }) := by
  unfold VFS.write
  rw [hOF]
  dsimp only
  rw [hINO]

theorem seek_eq (fs : FS) (fd : Nat) (off : Int) (of : OpenFile)
    (hOF : dictGet fs.open_files fd = some of) :
    VFS.seek fs fd off = (true, { fs with
      open_files := dictSet fs.open_files fd { of with offset := off.toNat } }) := by
  unfold VFS.seek
  rw [hOF]

theorem read_eq (fs : FS) (fd size : Nat) (of : OpenFile) (ino : Inode)
    (hOF : dictGet fs.open_files fd = some of)
    (hINO : fs.inodes.getD of.inode none = some ino)
    (hsz : of.offset < ino.size) :
    VFS.read fs fd size =
      (some (VFS.readLoop fs.block_size fs.device ino.direct of.offset
          (min size (ino.size - of.offset)) 0 []).1,
       { fs with open_files := dictSet fs.open_files fd { of with offset := of.offset +
           (VFS.readLoop fs.block_size fs.device ino.direct of.offset
             (min size (ino.size - of.offset)) 0 []).2 } }) := by
  unfold VFS.read
  rw [hOF]
  dsimp only
  rw [hINO]
  dsimp only
  rw [if_neg (by omega)]

theorem getD_replicate_self {α : Type} (n k : Nat) (x : α) :
    (List.replicate n x).getD k x = x := by
  rcases Nat.lt_or_ge k n with h | h
  · rw [List.getD_eq_getElem _ _ (by simpa using h)]
    simp
  · rw [List.getD_eq_default _ _ (by simpa using h)]

end MyFS

namespace MyFS

/-- Core of the write/seek/read round trip: on a descriptor at cursor `off`
over a fresh inode (size 0, all direct slots empty), with the write loop's
postcondition `WLGood` for its result `R` and the serialized metadata
fitting the reserved region (`hmeta`), `write` returns the full count,
`seek 0` succeeds, and reading `off + len` bytes from 0 yields the sparse
zero prefix followed by the written data. -/
theorem write_roundtrip_core (fs : FS) (fd : Nat) (data : List Nat) (of : OpenFile)
    (ino : Inode) (off : Nat) (R : Nat × List (List Nat) × List Bool × List (Option Nat))
    (hbs : 0 < fs.block_size) (hlen : 0 < data.length)
    (hOF : dictGet fs.open_files fd = some of) (hoff : of.offset = off)
    (hINO : fs.inodes.getD of.inode none = some ino) (hsize : ino.size = 0)
    (hdirect : ∀ k, ino.direct.getD k none = none)
    (hblen : fs.block_bitmap.length = fs.device.length)
    (hdevwf : ∀ j, j < fs.device.length → (fs.device.getD j []).length = fs.block_size)
    (hcap : off + data.length ≤ ino.direct.length * fs.block_size)
    (hzero : ∀ b, b < fs.device.length → fs.block_bitmap.getD b false = false →
      ∀ q, q < off % fs.block_size → (fs.device.getD b []).getD q 0 = 0)
    (hmeta : ∀ j, j < 2 + numChunks fs.block_size
        (strBytes (encodeInodes ((VFS.write fs fd data).2.inodes))).length →
      fs.block_bitmap.getD j false = true)
    (hREq : VFS.writeLoopAux fs.block_size off data data.length fs.device fs.block_bitmap
      ino.direct 0 = R)
    (hG : WLGood fs.block_size off data fs.device fs.block_bitmap ino.direct 0 R)
    (hdirlen : R.2.2.2.length = ino.direct.length) :
    (VFS.write fs fd data).1 = some data.length ∧
    (VFS.seek (VFS.write fs fd data).2 fd 0).1 = true ∧
    (VFS.read (VFS.seek (VFS.write fs fd data).2 fd 0).2 fd (off + data.length)).1
      = some (List.replicate off 0 ++ data) := by
  obtain ⟨G1, G2, G3, G4, G5, G6, G7, G8, G9, G10, G11⟩ := hG
  have hwEq := write_eq fs fd data of ino hOF hINO
  rw [hoff] at hwEq
  rw [show VFS.writeLoop fs.block_size fs.device fs.block_bitmap ino.direct off data 0
      = R from by unfold VFS.writeLoop; rw [Nat.sub_zero]; exact hREq] at hwEq
  have hofIno : of.inode < fs.inodes.length :=
    getD_lt_length _ _ _ _ hINO (fun h => Option.noConfusion h)
  have hXof : dictGet (VFS.write fs fd data).2.open_files fd
      = some { of with offset := off + R.1 } := by
    rw [hwEq]
    dsimp only
    rw [saveMetadata_open_files]
    dsimp only
    exact dictGet_dictSet_eq _ _ _
  have hXino : (VFS.write fs fd data).2.inodes.getD of.inode none
      = some { ino with direct := R.2.2.2, size := max ino.size (off + R.1) } := by
    rw [hwEq]
    dsimp only
    rw [saveMetadata_inodes]
    dsimp only
    exact getD_set_eq _ _ _ _ hofIno
  have hseekEq := seek_eq (VFS.write fs fd data).2 fd 0 _ hXof
  have hYdevX : (VFS.seek (VFS.write fs fd data).2 fd 0).2.device
      = (VFS.write fs fd data).2.device := by
    rw [hseekEq]
  have hYbs : (VFS.seek (VFS.write fs fd data).2 fd 0).2.block_size = fs.block_size := by
    rw [hseekEq]
    dsimp only
    rw [hwEq]
    dsimp only
    rw [saveMetadata_bs]
  have hYof : dictGet (VFS.seek (VFS.write fs fd data).2 fd 0).2.open_files fd
      = some { of with offset := (0 : Int).toNat } := by
    rw [hseekEq]
    dsimp only
    exact dictGet_dictSet_eq _ _ _
  have hYino : (VFS.seek (VFS.write fs fd data).2 fd 0).2.inodes.getD of.inode none
      = some { ino with direct := R.2.2.2, size := max ino.size (off + R.1) } := by
    rw [hseekEq]
    dsimp only
    exact hXino
  have hszlt : ({ of with offset := (0 : Int).toNat } : OpenFile).offset
      < ({ ino with direct := R.2.2.2, size := max ino.size (off + R.1) } : Inode).size := by
    dsimp only
    rw [show ((0 : Int).toNat) = 0 from rfl, hsize, G1]
    omega
  have hreadEq := read_eq (VFS.seek (VFS.write fs fd data).2 fd 0).2 fd
    (off + data.length) _ _ hYof hYino hszlt
  have hslotFree : ∀ j b, R.2.2.2.getD j none = some b →
      fs.block_bitmap.getD b false = false := by
    intro j b hjb
    rcases G10 j b hjb with hd | hf
    · rw [hdirect j] at hd
      exact absurd hd (fun h => Option.noConfusion h)
    · exact hf
  have hXdev : ∀ b, b < fs.device.length → fs.block_bitmap.getD b false = false →
      (VFS.write fs fd data).2.device.getD b [] = R.2.1.getD b [] := by
    intro b hbl hbF
    have hge : 2 + numChunks fs.block_size
        (strBytes (encodeInodes ((VFS.write fs fd data).2.inodes))).length ≤ b := by
      by_contra hlt
      push_neg at hlt
      have hmark := hmeta b hlt
      rw [hmark] at hbF
      exact Bool.noConfusion hbF
    rw [hwEq] at hge
    dsimp only at hge
    rw [saveMetadata_inodes] at hge
    rw [hwEq]
    dsimp only
    rw [saveMetadata_device_getD _ b (by dsimp only; exact hge)]
  have hslotRange : ∀ p, p < off + data.length → ∀ b,
      R.2.2.2.getD ((0 + p) / fs.block_size) none = some b → b < fs.device.length := by
    intro p hp b hb
    rw [Nat.zero_add] at hb
    by_cases hpo : p < off
    · rcases Nat.lt_or_ge (p / fs.block_size) (off / fs.block_size) with hdiv | hdiv
      · rw [G5 _ (by rw [Nat.add_zero]; exact hdiv), hdirect] at hb
        exact absurd hb (fun h => Option.noConfusion h)
      · have h1 : p / fs.block_size ≤ off / fs.block_size := Nat.div_le_div_right (by omega)
        have hdeq : p / fs.block_size = off / fs.block_size := by omega
        obtain ⟨b0, hb01, hb02, hb03, hb04⟩ := G11 (by omega)
        rw [Nat.add_zero] at hb01
        rw [hdeq, hb01] at hb
        have hbb : b = b0 := (Option.some.inj hb).symm
        rw [hbb]
        exact hb03
    · obtain ⟨b1, hb11, hb12, _⟩ := G2 (p - off) (Nat.zero_le _) (by omega)
      rw [show off + (p - off) = p from by omega] at hb11
      rw [hb11] at hb
      have hbb : b = b1 := (Option.some.inj hb).symm
      rw [hbb]
      exact hb12
  have hcapR : ∀ p, p < off + data.length →
      (0 + p) / fs.block_size < R.2.2.2.length := by
    intro p hp
    rw [hdirlen, Nat.div_lt_iff_lt_mul hbs]
    omega
  have hwfR : ∀ p, p < off + data.length → ∀ b,
      R.2.2.2.getD ((0 + p) / fs.block_size) none = some b →
      ((VFS.seek (VFS.write fs fd data).2 fd 0).2.device.getD b []).length
        = fs.block_size := by
    intro p hp b hb
    rw [hYdevX, hXdev b (hslotRange p hp b hb) (hslotFree _ _ hb)]
    exact G9 b (hslotRange p hp b hb)
  have hread := readLoopAux_content fs.block_size
    (VFS.seek (VFS.write fs fd data).2 fd 0).2.device R.2.2.2 0 (off + data.length)
    hbs hcapR hwfR (off + data.length) 0 [] (Nat.zero_le _) (by omega)
  have hmap : (List.range' 0 (off + data.length)).map
      (logByte fs.block_size (VFS.seek (VFS.write fs fd data).2 fd 0).2.device R.2.2.2)
      = List.replicate off 0 ++ data := by
    refine map_range'_eq _ _ 0 (off + data.length) ?_ ?_
    · rw [List.length_append, List.length_replicate]
    · intro t ht
      by_cases hto : t < off
      · rw [getD_append_left _ _ _ _ (by rw [List.length_replicate]; exact hto),
          getD_replicate_self]
        rcases Nat.lt_or_ge (t / fs.block_size) (off / fs.block_size) with hdiv | hdiv
        · unfold logByte
          rw [Nat.zero_add, G5 _ (by rw [Nat.add_zero]; exact hdiv), hdirect]
        · have h1 : t / fs.block_size ≤ off / fs.block_size := Nat.div_le_div_right (by omega)
          have hdeq : t / fs.block_size = off / fs.block_size := by omega
          obtain ⟨b0, hb01, hb02, hb03, hb04⟩ := G11 (by omega)
          rw [Nat.add_zero] at hb01
          unfold logByte
          rw [Nat.zero_add, hdeq, hb01]
          dsimp only
          have htmod : t % fs.block_size < off % fs.block_size := by
            have hd1 := Nat.div_add_mod t fs.block_size
            have hd2 := Nat.div_add_mod off fs.block_size
            rw [hdeq] at hd1
            omega
          rw [hYdevX, hXdev b0 hb03 hb02,
            hb04 (t % fs.block_size) (by rw [Nat.add_zero]; exact htmod)]
          exact hzero b0 hb03 hb02 _ htmod
      · obtain ⟨b1, hb11, hb12, hb13⟩ := G2 (t - off) (Nat.zero_le _) (by omega)
        rw [show off + (t - off) = t from by omega] at hb11 hb13
        unfold logByte
        rw [Nat.zero_add, hb11]
        dsimp only
        rw [hYdevX, hXdev b1 hb12 (hslotFree _ _ hb11), hb13]
        rw [getD_append_sub _ _ _ _ (by rw [List.length_replicate]; omega),
          List.length_replicate]
  simp only [Nat.add_zero, Nat.sub_zero, List.nil_append] at hread
  rw [hmap] at hread
  refine ⟨?_, ?_, ?_⟩
  · rw [hwEq]
    dsimp only
    rw [G1]
  · rw [hseekEq]
  · rw [hreadEq]
    dsimp only
    rw [show ((0 : Int).toNat) = 0 from rfl]
    rw [show min (off + data.length) (max ino.size (off + R.1) - 0) = off + data.length from by
      rw [hsize, G1]; omega]
    rw [hYbs]
    rw [show VFS.readLoop fs.block_size (VFS.seek (VFS.write fs fd data).2 fd 0).2.device
        R.2.2.2 0 (off + data.length) 0 []
        = VFS.readLoopAux fs.block_size (VFS.seek (VFS.write fs fd data).2 fd 0).2.device
          R.2.2.2 0 (off + data.length) (off + data.length) 0 [] from by
      unfold VFS.readLoop
      rw [Nat.sub_zero]]
    rw [hread]

end MyFS

namespace MyFS

/-- C2 (amended): on a freshly created file (size 0, empty direct slots)
open at cursor 0, for nonempty `data` that fits the direct capacity, with
enough free blocks (`ceil(N / B)`) and with the reserved metadata region
large enough to hold the serialized inode table produced by the write
(`hmeta` — the original claim omitted this and is refuted by
`C2_counterexample`, where the inode JSON spills into data blocks),
`write` returns the full count, `seek 0` succeeds, and `read N` returns
exactly the written bytes, within or across block boundaries. -/
theorem C2_amended (fs : FS) (fd : Nat) (data : List Nat) (of : OpenFile) (ino : Inode)
    (hbs : 0 < fs.block_size) (hlen : 0 < data.length)
    (hOF : dictGet fs.open_files fd = some of) (hoff : of.offset = 0)
    (hINO : fs.inodes.getD of.inode none = some ino) (hsize : ino.size = 0)
    (hdirect : ∀ k, ino.direct.getD k none = none)
    (hblen : fs.block_bitmap.length = fs.device.length)
    (hdevwf : ∀ j, j < fs.device.length → (fs.device.getD j []).length = fs.block_size)
    (hcap : data.length ≤ ino.direct.length * fs.block_size)
    (hfree : (data.length - 1) / fs.block_size + 1 ≤ countFree fs.block_bitmap)
    (hmeta : ∀ j, j < 2 + numChunks fs.block_size
        (strBytes (encodeInodes ((VFS.write fs fd data).2.inodes))).length →
      fs.block_bitmap.getD j false = true) :
    (VFS.write fs fd data).1 = some data.length ∧
    (VFS.seek (VFS.write fs fd data).2 fd 0).1 = true ∧
    (VFS.read (VFS.seek (VFS.write fs fd data).2 fd 0).2 fd data.length).1 = some data := by
  have hcore := write_roundtrip_core fs fd data of ino 0 _ hbs hlen hOF hoff hINO hsize
    hdirect hblen hdevwf (by simpa using hcap)
    (fun b _ _ q hq => absurd (by rw [Nat.zero_mod] at hq; exact hq) (Nat.not_lt_zero q))
    hmeta rfl
    (writeLoopAux_content fs.block_size 0 data hbs data.length fs.device fs.block_bitmap
      ino.direct 0 (Nat.zero_le _) (by omega) hblen hdevwf (by simpa using hcap)
      (fun _ k _ => hdirect k) (fun _ => by simpa using hfree))
    (writeLoopAux_direct_length fs.block_size 0 data data.length fs.device fs.block_bitmap
      ino.direct 0)
  obtain ⟨h1, h2, h3⟩ := hcore
  rw [Nat.zero_add] at h3
  simp only [List.replicate_zero, List.nil_append] at h3
  exact ⟨h1, h2, h3⟩

/-- C2 witness: on the 5-block, 160-byte-block state `exState` (fresh file
"a" open on fd 0 at cursor 0), writing 170 bytes (crossing the block
boundary) round-trips: the serialized inode table (132 bytes) fits the
reserved block and both free blocks are available. -/
theorem C2_amended_witness :
    (VFS.write exState 0 (List.replicate 170 7)).1 = some (List.replicate 170 7).length ∧
    (VFS.seek (VFS.write exState 0 (List.replicate 170 7)).2 0 0).1 = true ∧
    (VFS.read (VFS.seek (VFS.write exState 0 (List.replicate 170 7)).2 0 0).2 0
      (List.replicate 170 7).length).1 = some (List.replicate 170 7) :=
  C2_amended exState 0 (List.replicate 170 7) { inode := 0, offset := 0 } freshIno
    (by decide) (by decide) rfl rfl rfl rfl
    (fun k => getD_replicate_none 10 k)
    rfl (by decide) (by decide) (by decide) (by decide)

end MyFS

namespace MyFS

/-- C7 (amended): on a fresh file open on `fd`, seeking to `off` and
writing `data` (a sparse write when `off > 0`), then seeking back to 0 and
reading `off + len` bytes yields a zero-filled prefix of length `off`
followed by the written bytes, and `read` never touches the bitmap or the
inode table; this needs (beyond capacity, free-count and metadata-fit
conditions) the free blocks' bytes below the splice point to be zero
(`hzero` — the original claim omitted this and is refuted by
`C7_counterexample`, where a freed block's stale bytes read back). -/
theorem C7_amended (fs : FS) (fd off : Nat) (data : List Nat) (of : OpenFile) (ino : Inode)
    (hbs : 0 < fs.block_size) (hlen : 0 < data.length)
    (hOF : dictGet fs.open_files fd = some of)
    (hINO : fs.inodes.getD of.inode none = some ino) (hsize : ino.size = 0)
    (hdirect : ∀ k, ino.direct.getD k none = none)
    (hblen : fs.block_bitmap.length = fs.device.length)
    (hdevwf : ∀ j, j < fs.device.length → (fs.device.getD j []).length = fs.block_size)
    (hcap : off + data.length ≤ ino.direct.length * fs.block_size)
    (hfree : (off + data.length - 1) / fs.block_size + 1 - off / fs.block_size
      ≤ countFree fs.block_bitmap)
    (hzero : ∀ b, b < fs.device.length → fs.block_bitmap.getD b false = false →
      ∀ q, q < off % fs.block_size → (fs.device.getD b []).getD q 0 = 0)
    (hmeta : ∀ j, j < 2 + numChunks fs.block_size
        (strBytes (encodeInodes ((VFS.write (VFS.seek fs fd (off : Int)).2 fd
          data).2.inodes))).length →
      fs.block_bitmap.getD j false = true) :
    (VFS.seek fs fd (off : Int)).1 = true ∧
    (VFS.write (VFS.seek fs fd (off : Int)).2 fd data).1 = some data.length ∧
    (VFS.seek (VFS.write (VFS.seek fs fd (off : Int)).2 fd data).2 fd 0).1 = true ∧
    (VFS.read (VFS.seek (VFS.write (VFS.seek fs fd (off : Int)).2 fd data).2 fd 0).2 fd
        (off + data.length)).1 = some (List.replicate off 0 ++ data) ∧
    (∀ st n, (VFS.read st fd n).2.block_bitmap = st.block_bitmap ∧
      (VFS.read st fd n).2.inodes = st.inodes) := by
  have hs1 := seek_eq fs fd (off : Int) of hOF
  rw [hs1] at hmeta ⊢
  dsimp only at hmeta ⊢
  have hcore := write_roundtrip_core
    { fs with open_files := dictSet fs.open_files fd { of with offset := (off : Int).toNat } }
    fd data { of with offset := (off : Int).toNat } ino off _
    hbs hlen (dictGet_dictSet_eq _ _ _) rfl hINO hsize hdirect hblen hdevwf hcap hzero hmeta
    rfl
    (writeLoopAux_content fs.block_size off data hbs data.length fs.device fs.block_bitmap
      ino.direct 0 (Nat.zero_le _) (by omega) hblen hdevwf hcap
      (fun _ k _ => hdirect k) (fun _ => hfree))
    (writeLoopAux_direct_length fs.block_size off data data.length fs.device fs.block_bitmap
      ino.direct 0)
  obtain ⟨h2, h3, h4⟩ := hcore
  refine ⟨rfl, h2, h3, h4, ?_⟩
  intro st n
  rcases read_cases st fd n with h | ⟨o, i, _, _, _, h⟩
  · rw [h]
    exact ⟨rfl, rfl⟩
  · rw [h]
    exact ⟨rfl, rfl⟩

/-- C7 witness: on `exState` (fresh file "a" open on fd 0, zero-filled
device), seek to 200, write 30 bytes of value 9, seek back and read 230
bytes: the result is 200 zero bytes followed by the data. -/
theorem C7_amended_witness :
    (VFS.seek exState 0 ((200 : Nat) : Int)).1 = true ∧
    (VFS.write (VFS.seek exState 0 ((200 : Nat) : Int)).2 0 (List.replicate 30 9)).1
      = some (List.replicate 30 9).length ∧
    (VFS.seek (VFS.write (VFS.seek exState 0 ((200 : Nat) : Int)).2 0
      (List.replicate 30 9)).2 0 0).1 = true ∧
    (VFS.read (VFS.seek (VFS.write (VFS.seek exState 0 ((200 : Nat) : Int)).2 0
        (List.replicate 30 9)).2 0 0).2 0 (200 + (List.replicate 30 9).length)).1
      = some (List.replicate 200 0 ++ List.replicate 30 9) ∧
    (∀ st n, (VFS.read st 0 n).2.block_bitmap = st.block_bitmap ∧
      (VFS.read st 0 n).2.inodes = st.inodes) :=
  C7_amended exState 0 200 (List.replicate 30 9) { inode := 0, offset := 0 } freshIno
    (by decide) (by decide) rfl rfl rfl
    (fun k => getD_replicate_none 10 k)
    rfl (by decide) (by decide) (by decide) (by decide) (by decide)

end MyFS
